import Mathlib

/-!
Verification of the Star Battle solver (pytudes `StarBattle.ipynb`).

The Python program is shallowly embedded as follows.

* A cell is a `Nat`; a unit is a `Finset Nat`; Python `set`s of cells become
  `Finset Nat` and Python lists stay `List`.
* `Board` mirrors the `Board` named tuple `(N, S, units, units_for, pic)`.
  The Python field `units_for` is a dict with keys `range(N*N)` whose value at
  `c` is `[u for u in units if c in u]`; it is embedded as a total function
  `Nat → List (Finset Nat)`, and concrete boards define it by exactly that
  filter.  The predicate `WfB` states that the field agrees with the filter,
  which is the §3 data-model invariant of the board.
* `St` mirrors the `State` named tuple `(units, stars, unknowns)`.
* Python mutates one `State` in place; the embedding passes the state and
  returns the state reached, together with the outcome.  `PutRes.ok s`
  corresponds to `return state` (success), `PutRes.fail s` to `return None`
  with the mutations performed so far, and `PutRes.err s` to an uncaught
  `KeyError` raised by `set.remove` (which aborts the computation; the carried
  state is the one at the moment of the raise).
* The mutual recursion of `put_star`/`put_blank` is embedded as the single
  function `putF` (selector `true` = `put_star`, `false` = `put_blank`) with
  an explicit fuel counter that decreases exactly at each nested
  `put_star`/`put_blank` call, so the fuel measures the depth of the mutual
  recursion; `none` means the fuel ran out.  Total wrappers `put_star`,
  `put_blank` and `search` supply the provably sufficient fuel
  `card unknowns + 1`.
* Python iterates over hash sets in an unspecified, implementation-defined
  order (`neighbors(...)`, `unit & state.unknowns`, `state.units[0] &
  state.unknowns`, `set(pic)`).  The embedding fixes the ascending cell order
  (`ascList`), respectively first-occurrence order for `set(pic)`; all
  settled claims except the ordering claim C8 are insensitive to this choice.
* The generator `search` is embedded as the eager list of its yields plus a
  flag telling whether the generator finally raised `KeyError`; yields made
  before a raise are kept, matching how a consumer of the lazy generator sees
  them.  `solve` takes the first yield (`next`), so it raises `StopIteration`
  when the list is empty and no error occurred first.
-/

/-- Iteration over a Python set of cells, fixed to ascending order: the
elements of `s` listed ascending (every element is at most `s.sup id`). -/
def ascList (s : Finset Nat) : List Nat :=
  (List.range (s.sup id + 1)).filter (fun c => decide (c ∈ s))

/-- Python `neighbors(cell, N)`: the set of cells adjacent (including
diagonally) to `cell` on an N×N board, built exactly like the source from the
offset sets `dxs`, `dys` and the comprehension filtered by `dx or dy`. -/
def neighbors (cell N : Nat) : Finset Nat :=
  let dxs : Finset Int := {0, if cell % N ≠ N - 1 then 1 else 0, if cell % N ≠ 0 then -1 else 0}
  let dys : Finset Int := {0, if cell + N < N ^ 2 then (N : Int) else 0, if N ≤ cell then -(N : Int) else 0}
  ((dys ×ˢ dxs).filter (fun p => p.2 ≠ 0 ∨ p.1 ≠ 0)).image
    (fun p => ((cell : Int) + p.2 + p.1).toNat)

/-- Python `indexes(sequence, item)`: all indexes where `item` appears. -/
def indexes (sequence : List Char) (item : Char) : Finset Nat :=
  (Finset.range sequence.length).filter (fun i => sequence.getD i item = item)

/-- Board named tuple `(N, S, units, units_for, pic)`. -/
structure Board where
  N : Nat
  S : Nat
  units : List (Finset Nat)
  units_for : Nat → List (Finset Nat)
  pic : List Char

/-- State named tuple `(units, stars, unknowns)`. -/
structure St where
  units : List (Finset Nat)
  stars : Finset Nat
  unknowns : Finset Nat
deriving DecidableEq

/-- Data-model invariant of §3: `units_for` lists exactly the units
containing each cell, in the order of `units`, as `make_board` builds it. -/
def WfB (b : Board) : Prop :=
  ∀ c : Nat, b.units_for c = b.units.filter (fun u => c ∈ u)

/-- Python `''.join(picture.split())`: drop all whitespace characters. -/
def stripWS (picture : List Char) : List Char :=
  picture.filter (fun ch => !ch.isWhitespace)

/-- Integer square root by exhaustive count, used so that `make_board`
evaluates inside the kernel; `isqrt_eq_sqrt` shows it is `Nat.sqrt`. -/
def isqrt (n : Nat) : Nat :=
  ((Finset.range (n + 1)).filter (fun k => k * k ≤ n)).card - 1

/-- Python `make_board(S, picture)`.  `int(len(pic) ** 0.5)` is modelled as
the integer square root (the float computation is exact for every board whose
side fits in a float mantissa, i.e. all realistic sizes); the
`assert len(pic) == N * N` becomes the `none` branch, since a failed
assertion raises `AssertionError` instead of returning a `Board`.  The
iteration order of the Python set `set(pic)` is unspecified; the embedding
takes the distinct characters in first-occurrence order. -/
def makeBoard (S : Nat) (picture : List Char) : Option Board :=
  let pic := stripWS picture
  let N := isqrt pic.length
  if pic.length = N * N then
    let side := List.range N
    let cols := side.map (fun c => (side.map (fun r => N * r + c)).toFinset)
    let rows := side.map (fun r => (side.map (fun c => N * r + c)).toFinset)
    let boxes := pic.dedup.map (fun ch => indexes pic ch)
    let units := cols ++ rows ++ boxes
    some { N := N, S := S, units := units,
           units_for := fun c => units.filter (fun u => c ∈ u), pic := pic }
  else none

/-- Python `count_stars(unit, state)`. -/
def count_stars (unit : Finset Nat) (s : St) : Nat := (unit ∩ s.stars).card

/-- Outcome of `put_star`/`put_blank` together with the state reached:
`ok` = returned the (mutated) state, `fail` = returned `None`,
`err` = raised `KeyError` from `set.remove`. -/
inductive PutRes where
  | ok : St → PutRes
  | fail : St → PutRes
  | err : St → PutRes
deriving DecidableEq

/-- State carried by a `PutRes`. -/
def PutRes.st : PutRes → St
  | .ok s => s
  | .fail s => s
  | .err s => s

/-- Run a Python `for` loop whose body mutates the state and can `return
None` (fail) or raise (err): continue on success, stop on anything else,
propagate exhausted fuel. -/
def runLoop {α : Type} (step : α → St → Option PutRes) : List α → St → Option PutRes
  | [], s => some (PutRes.ok s)
  | x :: xs, s =>
    match step x s with
    | none => none
    | some (PutRes.ok s1) => runLoop step xs s1
    | some (PutRes.fail s1) => some (PutRes.fail s1)
    | some (PutRes.err s1) => some (PutRes.err s1)

/-- One iteration of the `put_star` neighbor loop `if c in state.stars or
not put_blank(c, board, state): return None` (`pb` is `put_blank` at the
next fuel level). -/
def nbrStep (pb : Nat → St → Option PutRes) (c : Nat) (t : St) : Option PutRes :=
  if c ∈ t.stars then some (PutRes.fail t) else pb c t

/-- One iteration of the `put_blank` unit loop: the two quota checks against
`S`, forcing a star into each remaining unknown cell of the unit when the
slack is exactly zero (`ps` is `put_star` at the next fuel level). -/
def unitStep (ps : Nat → St → Option PutRes) (b : Board) (u : Finset Nat) (t : St) :
    Option PutRes :=
  let cnt := count_stars u t
  let unk := u ∩ t.unknowns
  if cnt + unk.card < b.S then some (PutRes.fail t)
  else if cnt + unk.card = b.S then runLoop ps (ascList unk) t
  else some (PutRes.ok t)

/-- Python `put_star` (`isStar = true`) and `put_blank` (`isStar = false`)
with fuel, embedded as one function since they are mutually recursive.  The
fuel decreases exactly at each nested call, so it bounds the depth of the
mutual recursion; `none` = fuel exhausted. -/
def putF : Nat → Board → Bool → Nat → St → Option PutRes
  | 0, _, _, _, _ => none
  | f + 1, b, true, cell, s =>
    if cell ∈ s.stars then some (PutRes.ok s)
    else if cell ∈ s.unknowns then
      let s1 : St := ⟨s.units, insert cell s.stars, s.unknowns.erase cell⟩
      if (b.units_for cell).any (fun u => decide (b.S < count_stars u s1)) then
        some (PutRes.fail s1)
      else runLoop (nbrStep (putF f b false)) (ascList (neighbors cell b.N)) s1
    else some (PutRes.err s)
  | f + 1, b, false, cell, s =>
    if cell ∈ s.unknowns then
      runLoop (unitStep (putF f b true) b) (b.units_for cell)
        ⟨s.units, s.stars, s.unknowns.erase cell⟩
    else some (PutRes.ok s)

/-- Python `put_star(cell, board, state)` at a given fuel. -/
def putStarF (f : Nat) (b : Board) (cell : Nat) (s : St) : Option PutRes :=
  putF f b true cell s

/-- Python `put_blank(cell, board, state)` at a given fuel. -/
def putBlankF (f : Nat) (b : Board) (cell : Nat) (s : St) : Option PutRes :=
  putF f b false cell s

/-- Total `put_star`: the fuel `card unknowns + 1` is sufficient (proved in
`putF_isSome`), so the default is never taken. -/
def put_star (b : Board) (cell : Nat) (s : St) : PutRes :=
  (putStarF (s.unknowns.card + 1) b cell s).getD (PutRes.err s)

/-- Total `put_blank` with the provably sufficient fuel. -/
def put_blank (b : Board) (cell : Nat) (s : St) : PutRes :=
  (putBlankF (s.unknowns.card + 1) b cell s).getD (PutRes.err s)

/-- Python `is_solution(board, stars)`: every unit holds exactly `S` stars
and no star is in the neighbor set of another. -/
def is_solution (b : Board) (stars : Finset Nat) : Bool :=
  b.units.all (fun u => (stars ∩ u).card == b.S) &&
  (ascList stars).all (fun c1 =>
    (ascList stars).all (fun c2 => !(decide (c1 ∈ neighbors c2 b.N))))

/-- Python `initial_state(board)`: all units pending, sorted ascending by
size (`sorted(board.units, key=len)` is a stable ascending sort; stability
is irrelevant to every settled claim), no stars, all cells unknown. -/
def initial_state (b : Board) : St :=
  ⟨b.units.insertionSort (fun u v => u.card ≤ v.card), ∅, Finset.range (b.N ^ 2)⟩

/-- The `while` loop of `search` that pops already-filled units from the
front of the pending list. -/
def dropFilled (b : Board) (s : St) : List (Finset Nat) :=
  s.units.dropWhile (fun u => count_stars u s == b.S)

/-- The loop `for c in state.units[0] & state.unknowns` of `search`: clone,
guess a star, recurse (through `rec`) on success, skip the candidate on
failure; a raised `KeyError` ends the generator after the yields made so
far. -/
def gLoop (rec : St → Option (List St × Bool)) (b : Board) (s : St) :
    List Nat → Option (List St × Bool)
  | [] => some ([], false)
  | c :: cs =>
    match put_star b c s with
    | PutRes.ok s1 =>
      match rec s1 with
      | none => none
      | some (l, true) => some (l, true)
      | some (l, false) =>
        match gLoop rec b s cs with
        | none => none
        | some (l2, e2) => some (l ++ l2, e2)
    | PutRes.fail _ => gLoop rec b s cs
    | PutRes.err _ => some ([], true)

/-- Python `search(board, state)`: the list of yielded states, paired with a
flag that is `true` when the generator ends by propagating a `KeyError`
instead of finishing normally (yields made before the raise are kept).
`none` = fuel exhausted. -/
def searchF : Nat → Board → St → Option (List St × Bool)
  | 0, _, _ => none
  | fuel + 1, b, s =>
    match dropFilled b s with
    | [] => some ([⟨[], s.stars, s.unknowns⟩], false)
    | u :: rest =>
      gLoop (searchF fuel b) b ⟨u :: rest, s.stars, s.unknowns⟩ (ascList (u ∩ s.unknowns))

/-- Total `search` run (yields and error flag) with the provably sufficient
fuel `card unknowns + 1`. -/
def searchRun (b : Board) (s : St) : List St × Bool :=
  (searchF (s.unknowns.card + 1) b s).getD ([], true)

/-- The sequence of states yielded by `search`. -/
def search (b : Board) (s : St) : List St := (searchRun b s).1

/-- The ways Python `solve` can end without returning stars. -/
inductive SolveErr where
  | stopIteration : SolveErr
  | keyError : SolveErr
deriving DecidableEq

/-- Python `solve(board)`: `next(search(board, initial_state(board))).stars`.
`next` forces the generator only up to its first yield, so a first yield
gives `ok` even if a later branch would raise; an empty generator raises
`StopIteration`; a `KeyError` raised before any yield propagates. -/
def solve (b : Board) : Except SolveErr (Finset Nat) :=
  match searchRun b (initial_state b) with
  | (t :: _, _) => Except.ok t.stars
  | ([], true) => Except.error SolveErr.keyError
  | ([], false) => Except.error SolveErr.stopIteration

theorem neighbors_corner_5 : neighbors 0 5 = {1, 5, 6} := by decide

theorem neighbors_trivial : neighbors 0 1 = ∅ := by decide

theorem neighbors_center_3 : neighbors 7 3 = {3, 4, 5, 6, 8} := by decide

theorem ascList_example : ascList {5, 2} = [2, 5] := by decide

/-! ### Basic facts about the embedding -/

theorem mem_ascList {s : Finset Nat} {c : Nat} : c ∈ ascList s ↔ c ∈ s := by
  unfold ascList
  simp only [List.mem_filter, List.mem_range, decide_eq_true_eq, and_iff_right_iff_imp]
  intro hc
  have : c ≤ s.sup id := Finset.le_sup (f := id) hc
  omega

theorem PutRes.st_ok (s : St) : (PutRes.ok s).st = s := rfl

/-- The quota quantity of a unit: stars already in it plus unknown cells
left in it. -/
def quota (u : Finset Nat) (s : St) : Nat :=
  count_stars u s + (u ∩ s.unknowns).card

/-- What one successful propagation step does to the state: the pending
list is untouched, unknowns shrink, stars grow and only out of the former
unknowns, and disjointness of stars and unknowns is preserved. -/
def Steps (s t : St) : Prop :=
  t.units = s.units ∧ t.unknowns ⊆ s.unknowns ∧ s.stars ⊆ t.stars ∧
  t.stars ⊆ s.stars ∪ s.unknowns ∧
  (Disjoint s.stars s.unknowns → Disjoint t.stars t.unknowns)

theorem Steps.steps_refl {s : St} : Steps s s :=
  ⟨Eq.refl _, le_refl _, le_refl _, Finset.subset_union_left, fun h => h⟩

theorem Steps.steps_trans {s t w : St} (h1 : Steps s t) (h2 : Steps t w) : Steps s w := by
  obtain ⟨e1, u1, s1, b1, d1⟩ := h1
  obtain ⟨e2, u2, s2, b2, d2⟩ := h2
  refine ⟨e2.trans e1, u2.trans u1, s1.trans s2, ?_, fun h => d2 (d1 h)⟩
  intro x hx
  rcases Finset.mem_union.mp (b2 hx) with hx2 | hx2
  · exact b1 hx2
  · exact Finset.mem_union_right _ (u1 hx2)

theorem disjoint_move {s : St} {cell : Nat} (hd : Disjoint s.stars s.unknowns) :
    Disjoint (insert cell s.stars) (s.unknowns.erase cell) := by
  rw [Finset.disjoint_left] at hd ⊢
  intro a ha hau
  have hne : a ≠ cell := Finset.ne_of_mem_erase hau
  rcases Finset.mem_insert.mp ha with h | h
  · exact hne h
  · exact hd h (Finset.mem_of_mem_erase hau)

theorem steps_move {s : St} {cell : Nat} (hcu : cell ∈ s.unknowns) :
    Steps s ⟨s.units, insert cell s.stars, s.unknowns.erase cell⟩ := by
  refine ⟨rfl, Finset.erase_subset _ _, Finset.subset_insert _ _, ?_, fun h => disjoint_move h⟩
  intro x hx
  rcases Finset.mem_insert.mp hx with h | h
  · exact Finset.mem_union_right _ (h ▸ hcu)
  · exact Finset.mem_union_left _ h

theorem steps_erase {s : St} {cell : Nat} :
    Steps s ⟨s.units, s.stars, s.unknowns.erase cell⟩ := by
  refine ⟨rfl, Finset.erase_subset _ _, le_refl _, Finset.subset_union_left, fun h => ?_⟩
  exact h.mono_right (Finset.erase_subset _ _)

/-- `runLoop` only produces results whose state is reached from the input
state by the per-element steps. -/
theorem runLoop_steps {α : Type} {step : α → St → Option PutRes}
    (hstep : ∀ x t r, step x t = some r → Steps t r.st) :
    ∀ (xs : List α) (s : St) (r : PutRes), runLoop step xs s = some r → Steps s r.st := by
  intro xs
  induction xs with
  | nil => intro s r h; simp only [runLoop] at h; cases h; exact Steps.steps_refl
  | cons x xs ih =>
    intro s r h
    simp only [runLoop] at h
    cases hx : step x s with
    | none => rw [hx] at h; cases h
    | some r1 =>
      rw [hx] at h
      have h1 : Steps s r1.st := hstep x s r1 hx
      cases r1 with
      | ok s1 => exact h1.steps_trans (ih s1 r h)
      | fail s1 => cases h; exact h1
      | err s1 => cases h; exact h1

/-- Frame and monotonicity of `put_star`/`put_blank`, for every outcome,
including failures and raises. -/
theorem putF_steps :
    ∀ (f : Nat) (b : Board) (is : Bool) (cell : Nat) (s : St) (r : PutRes),
      putF f b is cell s = some r → Steps s r.st := by
  intro f
  induction f with
  | zero => intro b is cell s r h; simp [putF] at h
  | succ f ih =>
    intro b is cell s r h
    cases is with
    | true =>
      simp only [putF] at h
      by_cases h1 : cell ∈ s.stars
      · simp only [h1, if_true] at h; cases h; exact Steps.steps_refl
      · simp only [h1, if_false] at h
        by_cases h2 : cell ∈ s.unknowns
        · simp only [h2, if_true] at h
          by_cases h3 : (b.units_for cell).any
              (fun u => decide (b.S < count_stars u ⟨s.units, insert cell s.stars, s.unknowns.erase cell⟩))
          · simp only [h3, if_true] at h; cases h; exact steps_move h2
          · simp only [h3, if_false] at h
            refine (steps_move h2).steps_trans ?_
            refine runLoop_steps ?_ _ _ r h
            intro x t r1 hx
            unfold nbrStep at hx
            by_cases hxs : x ∈ t.stars
            · simp only [hxs, if_true] at hx; cases hx; exact Steps.steps_refl
            · simp only [hxs, if_false] at hx; exact ih b false x t r1 hx
        · simp only [h2, if_false] at h; cases h; exact Steps.steps_refl
    | false =>
      simp only [putF] at h
      by_cases h2 : cell ∈ s.unknowns
      · simp only [h2, if_true] at h
        refine (@steps_erase s cell).steps_trans ?_
        refine runLoop_steps ?_ _ _ r h
        intro u t r1 hu
        unfold unitStep at hu
        by_cases hlt : count_stars u t + (u ∩ t.unknowns).card < b.S
        · simp only [hlt, if_true] at hu; cases hu; exact Steps.steps_refl
        · simp only [hlt, if_false] at hu
          by_cases heq : count_stars u t + (u ∩ t.unknowns).card = b.S
          · simp only [heq, if_true] at hu
            refine runLoop_steps ?_ _ _ r1 hu
            intro c w r2 hw
            exact ih b true c w r2 hw
          · simp only [heq, if_false] at hu; cases hu; exact Steps.steps_refl
      · simp only [h2, if_false] at h; cases h; exact Steps.steps_refl

/-- A loop whose steps produce results and whose step states keep shrinking
cannot get stuck, as long as each step is defined below the card bound. -/
theorem runLoop_isSome {α : Type} {step : α → St → Option PutRes} {B : Nat}
    (hsteps : ∀ x t r, step x t = some r → Steps t r.st)
    (hsome : ∀ x t, t.unknowns.card ≤ B → (step x t).isSome) :
    ∀ (xs : List α) (s : St), s.unknowns.card ≤ B → (runLoop step xs s).isSome := by
  intro xs
  induction xs with
  | nil => intro s _; simp [runLoop]
  | cons x xs ih =>
    intro s hs
    simp only [runLoop]
    cases hx : step x s with
    | none => exact absurd (hx ▸ hsome x s hs) (by simp)
    | some r =>
      cases r with
      | ok s1 =>
        have hcard : s1.unknowns.card ≤ B :=
          le_trans (Finset.card_le_card (hsteps x s _ hx).2.1) hs
        exact ih s1 hcard
      | fail s1 => simp
      | err s1 => simp

/-- Fuel adequacy: fuel exceeding the number of unknown cells never runs
out, because every nested call starts after one more cell was resolved. -/
theorem putF_isSome :
    ∀ (f : Nat) (b : Board) (is : Bool) (cell : Nat) (s : St),
      s.unknowns.card < f → (putF f b is cell s).isSome := by
  intro f
  induction f with
  | zero => intro b is cell s h; omega
  | succ f ih =>
    intro b is cell s hcard
    cases is with
    | true =>
      simp only [putF]
      by_cases h1 : cell ∈ s.stars
      · simp [h1]
      · simp only [h1, if_false]
        by_cases h2 : cell ∈ s.unknowns
        · simp only [h2, if_true]
          by_cases h3 : (b.units_for cell).any
              (fun u => decide (b.S < count_stars u ⟨s.units, insert cell s.stars, s.unknowns.erase cell⟩))
          · simp [h3]
          · simp only [h3, if_false]
            have hc1 : (s.unknowns.erase cell).card = s.unknowns.card - 1 :=
              Finset.card_erase_of_mem h2
            have hpos : 1 ≤ s.unknowns.card := Finset.card_pos.mpr ⟨cell, h2⟩
            refine runLoop_isSome (B := s.unknowns.card - 1) ?_ ?_ _ _ (by simp [hc1])
            · intro x t r hx
              unfold nbrStep at hx
              by_cases hxs : x ∈ t.stars
              · simp only [hxs, if_true] at hx; cases hx; exact Steps.steps_refl
              · simp only [hxs, if_false] at hx; exact putF_steps f b false x t r hx
            · intro x t ht
              unfold nbrStep
              by_cases hxs : x ∈ t.stars
              · simp [hxs]
              · simp only [hxs, if_false]; exact ih b false x t (by omega)
        · simp [h2]
    | false =>
      simp only [putF]
      by_cases h2 : cell ∈ s.unknowns
      · simp only [h2, if_true]
        have hc1 : (s.unknowns.erase cell).card = s.unknowns.card - 1 :=
          Finset.card_erase_of_mem h2
        have hpos : 1 ≤ s.unknowns.card := Finset.card_pos.mpr ⟨cell, h2⟩
        refine runLoop_isSome (B := s.unknowns.card - 1) ?_ ?_ _ _ (by simp [hc1])
        · intro u t r hu
          unfold unitStep at hu
          by_cases hlt : count_stars u t + (u ∩ t.unknowns).card < b.S
          · simp only [hlt, if_true] at hu; cases hu; exact Steps.steps_refl
          · simp only [hlt, if_false] at hu
            by_cases heq : count_stars u t + (u ∩ t.unknowns).card = b.S
            · simp only [heq, if_true] at hu
              exact runLoop_steps (fun c w r2 hw => putF_steps f b true c w r2 hw) _ _ r hu
            · simp only [heq, if_false] at hu; cases hu; exact Steps.steps_refl
        · intro u t ht
          unfold unitStep
          by_cases hlt : count_stars u t + (u ∩ t.unknowns).card < b.S
          · simp [hlt]
          · simp only [hlt, if_false]
            by_cases heq : count_stars u t + (u ∩ t.unknowns).card = b.S
            · simp only [heq, if_true]
              refine runLoop_isSome (B := s.unknowns.card - 1) ?_ ?_ _ _ ht
              · intro c w r2 hw; exact putF_steps f b true c w r2 hw
              · intro c w hw; exact ih b true c w (by omega)
            · simp [heq]
      · simp [h2]

/-- The total wrappers agree with the fueled functions at their canonical
fuel. -/
theorem put_star_eq (b : Board) (cell : Nat) (s : St) :
    putStarF (s.unknowns.card + 1) b cell s = some (put_star b cell s) := by
  have h := putF_isSome (s.unknowns.card + 1) b true cell s (by omega)
  unfold put_star putStarF
  unfold putStarF at h
  cases hx : putF (s.unknowns.card + 1) b true cell s with
  | none => rw [hx] at h; cases h
  | some r => simp [hx]

theorem put_blank_eq (b : Board) (cell : Nat) (s : St) :
    putBlankF (s.unknowns.card + 1) b cell s = some (put_blank b cell s) := by
  have h := putF_isSome (s.unknowns.card + 1) b false cell s (by omega)
  unfold put_blank putBlankF
  unfold putBlankF at h
  cases hx : putF (s.unknowns.card + 1) b false cell s with
  | none => rw [hx] at h; cases h
  | some r => simp [hx]

/-! ### Counting helpers -/

theorem inter_insert_of_mem {u st : Finset Nat} {c : Nat} (h : c ∈ u) :
    u ∩ insert c st = insert c (u ∩ st) := by
  ext x
  simp only [Finset.mem_inter, Finset.mem_insert]
  constructor
  · rintro ⟨hx, hx2 | hx2⟩
    · exact Or.inl hx2
    · exact Or.inr ⟨hx, hx2⟩
  · rintro (rfl | ⟨hx, hx2⟩)
    · exact ⟨h, Or.inl rfl⟩
    · exact ⟨hx, Or.inr hx2⟩

theorem inter_insert_of_not_mem {u st : Finset Nat} {c : Nat} (h : c ∉ u) :
    u ∩ insert c st = u ∩ st := by
  ext x
  simp only [Finset.mem_inter, Finset.mem_insert]
  constructor
  · rintro ⟨hx, rfl | hx2⟩
    · exact absurd hx h
    · exact ⟨hx, hx2⟩
  · rintro ⟨hx, hx2⟩
    exact ⟨hx, Or.inr hx2⟩

theorem inter_erase {u st : Finset Nat} {c : Nat} :
    u ∩ st.erase c = (u ∩ st).erase c := by
  ext x
  simp only [Finset.mem_inter, Finset.mem_erase]
  tauto

theorem count_stars_mono {u : Finset Nat} {s t : St} (h : s.stars ⊆ t.stars) :
    count_stars u s ≤ count_stars u t :=
  Finset.card_le_card (Finset.inter_subset_inter (le_refl u) h)

theorem count_stars_move_mem {u : Finset Nat} {s : St} {cell : Nat} {L : List (Finset Nat)}
    (hu : cell ∈ u) (hcs : cell ∉ s.stars) :
    count_stars u ⟨L, insert cell s.stars, s.unknowns.erase cell⟩ = count_stars u s + 1 := by
  unfold count_stars
  show (u ∩ insert cell s.stars).card = _
  rw [inter_insert_of_mem hu, Finset.card_insert_of_not_mem (by simp [hcs])]

theorem count_stars_move_not_mem {u : Finset Nat} {s : St} {cell : Nat} {L : List (Finset Nat)}
    (hu : cell ∉ u) :
    count_stars u ⟨L, insert cell s.stars, s.unknowns.erase cell⟩ = count_stars u s := by
  unfold count_stars
  show (u ∩ insert cell s.stars).card = _
  rw [inter_insert_of_not_mem hu]

theorem unk_erase_mem {u : Finset Nat} {s : St} {cell : Nat} (hu : cell ∈ u)
    (hcu : cell ∈ s.unknowns) :
    (u ∩ s.unknowns.erase cell).card + 1 = (u ∩ s.unknowns).card := by
  rw [inter_erase, Finset.card_erase_of_mem (Finset.mem_inter.mpr ⟨hu, hcu⟩)]
  have : 0 < (u ∩ s.unknowns).card := Finset.card_pos.mpr ⟨cell, Finset.mem_inter.mpr ⟨hu, hcu⟩⟩
  omega

theorem unk_erase_not_mem {u : Finset Nat} {s : St} {cell : Nat} (hu : cell ∉ u) :
    u ∩ s.unknowns.erase cell = u ∩ s.unknowns := by
  ext x
  simp only [Finset.mem_inter, Finset.mem_erase]
  constructor
  · rintro ⟨hx, _, hx2⟩; exact ⟨hx, hx2⟩
  · rintro ⟨hx, hx2⟩; exact ⟨hx, fun he => hu (he ▸ hx), hx2⟩

theorem quota_move_mem {u : Finset Nat} {s : St} {cell : Nat} {L : List (Finset Nat)}
    (hu : cell ∈ u) (hcs : cell ∉ s.stars) (hcu : cell ∈ s.unknowns) :
    quota u ⟨L, insert cell s.stars, s.unknowns.erase cell⟩ = quota u s := by
  unfold quota
  rw [count_stars_move_mem hu hcs]
  show _ + 1 + (u ∩ s.unknowns.erase cell).card = _
  have := unk_erase_mem hu hcu (s := s)
  omega

theorem quota_move_not_mem {u : Finset Nat} {s : St} {cell : Nat} {L : List (Finset Nat)}
    (hu : cell ∉ u) :
    quota u ⟨L, insert cell s.stars, s.unknowns.erase cell⟩ = quota u s := by
  unfold quota
  rw [count_stars_move_not_mem hu]
  show _ + (u ∩ s.unknowns.erase cell).card = _
  rw [unk_erase_not_mem hu]

theorem quota_erase_mem {u : Finset Nat} {s : St} {cell : Nat} {L : List (Finset Nat)}
    (hu : cell ∈ u) (hcu : cell ∈ s.unknowns) :
    quota u ⟨L, s.stars, s.unknowns.erase cell⟩ + 1 = quota u s := by
  unfold quota
  show count_stars u s + (u ∩ s.unknowns.erase cell).card + 1 = _
  have := unk_erase_mem hu hcu (s := s)
  omega

theorem quota_erase_not_mem {u : Finset Nat} {s : St} {cell : Nat} {L : List (Finset Nat)}
    (hu : cell ∉ u) :
    quota u ⟨L, s.stars, s.unknowns.erase cell⟩ = quota u s := by
  unfold quota
  show count_stars u s + (u ∩ s.unknowns.erase cell).card = _
  rw [unk_erase_not_mem hu]

/-- With stars and unknowns disjoint, the quota of a unit counts the cells
of the unit that are still a star or unknown. -/
theorem quota_eq_card {u : Finset Nat} {s : St} (hd : Disjoint s.stars s.unknowns) :
    quota u s = (u ∩ (s.stars ∪ s.unknowns)).card := by
  unfold quota count_stars
  rw [Finset.inter_union_distrib_left]
  rw [Finset.card_union_of_disjoint]
  exact Finset.disjoint_of_subset_left Finset.inter_subset_right
    (Finset.disjoint_of_subset_right Finset.inter_subset_right hd)

/-! ### Invariants preserved by successful propagation -/

/-- Every unit still holds at most `S` stars. -/
def Capped (b : Board) (s : St) : Prop := ∀ u ∈ b.units, count_stars u s ≤ b.S

/-- Every star has all its neighbors resolved to blank (neither a star nor
unknown). -/
def Adj (b : Board) (s : St) : Prop :=
  ∀ y ∈ s.stars, ∀ x ∈ neighbors y b.N, x ∉ s.stars ∧ x ∉ s.unknowns

/-- How successful propagation changes unit quotas: never up, and a unit
whose quota dropped was rechecked against its target on the way. -/
def QuotaKey (b : Board) (s t : St) : Prop :=
  ∀ u ∈ b.units, quota u t ≤ quota u s ∧ (quota u t < quota u s → b.S ≤ quota u t)

/-- Every star placed during the call ends with its whole neighborhood
resolved to blank. -/
def NewStarsCleared (b : Board) (s t : St) : Prop :=
  ∀ y ∈ t.stars, y ∉ s.stars → ∀ x ∈ neighbors y b.N, x ∉ t.stars ∧ x ∉ t.unknowns

/-- Combined relation between the entry and exit states of a successful
propagation call. -/
def OkStep (b : Board) (s t : St) : Prop :=
  Steps s t ∧ QuotaKey b s t ∧ (Capped b s → Capped b t) ∧ NewStarsCleared b s t

theorem OkStep.okstep_refl {b : Board} {s : St} : OkStep b s s := by
  refine ⟨Steps.steps_refl, fun u _ => ⟨le_refl _, fun h => absurd h (lt_irrefl _)⟩,
    fun h => h, fun y hy hny => absurd hy hny⟩

theorem OkStep.okstep_trans {b : Board} {s t w : St} (h1 : OkStep b s t) (h2 : OkStep b t w) :
    OkStep b s w := by
  obtain ⟨st1, q1, c1, n1⟩ := h1
  obtain ⟨st2, q2, c2, n2⟩ := h2
  refine ⟨st1.steps_trans st2, ?_, fun h => c2 (c1 h), ?_⟩
  · intro u hu
    obtain ⟨le1, k1⟩ := q1 u hu
    obtain ⟨le2, k2⟩ := q2 u hu
    refine ⟨le2.trans le1, fun hlt => ?_⟩
    rcases lt_or_eq_of_le le2 with h | h
    · exact k2 h
    · exact h ▸ k1 (h ▸ hlt)
  · intro y hy hny x hx
    by_cases hyt : y ∈ t.stars
    · obtain ⟨hxs, hxu⟩ := n1 y hyt hny x hx
      constructor
      · intro hc
        rcases Finset.mem_union.mp (st2.2.2.2.1 hc) with h | h
        · exact hxs h
        · exact hxu h
      · exact fun hc => hxu (st2.2.1 hc)
    · exact n2 y hy hyt x hx

/-- Chaining successful loop iterations chains `OkStep`. -/
theorem runLoop_ok {α : Type} {b : Board} {step : α → St → Option PutRes}
    (hstep : ∀ x t r1, Disjoint t.stars t.unknowns → step x t = some (PutRes.ok r1) →
      OkStep b t r1) :
    ∀ (xs : List α) (s : St) (r : St), Disjoint s.stars s.unknowns →
      runLoop step xs s = some (PutRes.ok r) → OkStep b s r := by
  intro xs
  induction xs with
  | nil =>
    intro s r _ h
    simp only [runLoop] at h
    cases h
    exact OkStep.okstep_refl
  | cons x xs ih =>
    intro s r hd h
    simp only [runLoop] at h
    cases hx : step x s with
    | none => rw [hx] at h; cases h
    | some r1 =>
      rw [hx] at h
      cases r1 with
      | ok s1 =>
        have h1 : OkStep b s s1 := hstep x s s1 hd hx
        have hd1 : Disjoint s1.stars s1.unknowns := h1.1.2.2.2.2 hd
        exact h1.okstep_trans (ih s1 r hd1 h)
      | fail s1 => cases h
      | err s1 => cases h

theorem nbrStep_steps (f : Nat) (b : Board) :
    ∀ x t r, nbrStep (putF f b false) x t = some r → Steps t r.st := by
  intro x t r hx
  unfold nbrStep at hx
  by_cases hxs : x ∈ t.stars
  · simp only [hxs, if_true] at hx; cases hx; exact Steps.steps_refl
  · simp only [hxs, if_false] at hx; exact putF_steps f b false x t r hx

theorem unitStep_steps (f : Nat) (b : Board) :
    ∀ u t r, unitStep (putF f b true) b u t = some r → Steps t r.st := by
  intro u t r hu
  unfold unitStep at hu
  by_cases hlt : count_stars u t + (u ∩ t.unknowns).card < b.S
  · simp only [hlt, if_true] at hu; cases hu; exact Steps.steps_refl
  · simp only [hlt, if_false] at hu
    by_cases heq : count_stars u t + (u ∩ t.unknowns).card = b.S
    · simp only [heq, if_true] at hu
      exact runLoop_steps (fun c w r2 hw => putF_steps f b true c w r2 hw) _ _ r hu
    · simp only [heq, if_false] at hu; cases hu; exact Steps.steps_refl

/-- A successful `put_blank` leaves its cell out of the unknowns. -/
theorem putBlank_clears :
    ∀ (f : Nat) (b : Board) (cell : Nat) (s : St) (r : St),
      putF f b false cell s = some (PutRes.ok r) → cell ∉ r.unknowns := by
  intro f b cell s r h
  cases f with
  | zero => simp [putF] at h
  | succ f =>
    simp only [putF] at h
    by_cases h2 : cell ∈ s.unknowns
    · simp only [h2, if_true] at h
      have hst := runLoop_steps (unitStep_steps f b) _ _ _ h
      intro hc
      exact Finset.not_mem_erase cell s.unknowns (hst.2.1 hc)
    · simp only [h2, if_false] at h; cases h; exact h2

/-- A successful `put_blank` never stars its own cell. -/
theorem putBlank_not_star :
    ∀ (f : Nat) (b : Board) (cell : Nat) (s : St) (r : St),
      putF f b false cell s = some (PutRes.ok r) → cell ∉ s.stars → cell ∉ r.stars := by
  intro f b cell s r h hcs
  cases f with
  | zero => simp [putF] at h
  | succ f =>
    simp only [putF] at h
    by_cases h2 : cell ∈ s.unknowns
    · simp only [h2, if_true] at h
      have hst := runLoop_steps (unitStep_steps f b) _ _ _ h
      intro hc
      rcases Finset.mem_union.mp (hst.2.2.2.1 hc) with hx | hx
      · exact hcs hx
      · exact Finset.not_mem_erase cell s.unknowns hx
    · simp only [h2, if_false] at h; cases h; exact hcs

/-- A successful `put_star` stars its cell and removes it from the
unknowns. -/
theorem putStar_adds :
    ∀ (f : Nat) (b : Board) (cell : Nat) (s : St) (r : St),
      Disjoint s.stars s.unknowns → putF f b true cell s = some (PutRes.ok r) →
      cell ∈ r.stars ∧ cell ∉ r.unknowns := by
  intro f b cell s r hd h
  cases f with
  | zero => simp [putF] at h
  | succ f =>
    simp only [putF] at h
    by_cases h1 : cell ∈ s.stars
    · simp only [h1, if_true] at h
      cases h
      exact ⟨h1, Finset.disjoint_left.mp hd h1⟩
    · simp only [h1, if_false] at h
      by_cases h2 : cell ∈ s.unknowns
      · simp only [h2, if_true] at h
        by_cases h3 : (b.units_for cell).any
            (fun u => decide (b.S < count_stars u ⟨s.units, insert cell s.stars, s.unknowns.erase cell⟩))
        · simp only [h3, if_true] at h; cases h
        · simp only [h3, if_false] at h
          have hst := runLoop_steps (nbrStep_steps f b) _ _ _ h
          constructor
          · exact hst.2.2.1 (Finset.mem_insert_self cell s.stars)
          · intro hc
            exact Finset.not_mem_erase cell s.unknowns (hst.2.1 hc)
      · simp only [h2, if_false] at h; cases h

/-- After the `put_star` neighbor loop succeeds, every visited neighbor is
resolved to blank. -/
theorem runLoop_nbr_cleared (f : Nat) (b : Board) :
    ∀ (xs : List Nat) (s r : St),
      runLoop (nbrStep (putF f b false)) xs s = some (PutRes.ok r) →
      ∀ x ∈ xs, x ∉ r.stars ∧ x ∉ r.unknowns := by
  intro xs
  induction xs with
  | nil => intro s r _ x hx; cases hx
  | cons y ys ih =>
    intro s r h x hx
    simp only [runLoop] at h
    cases hy : nbrStep (putF f b false) y s with
    | none => rw [hy] at h; cases h
    | some r1 =>
      rw [hy] at h
      cases r1 with
      | ok s1 =>
        rcases List.mem_cons.mp hx with rfl | hx2
        · have hys : x ∉ s.stars := by
            unfold nbrStep at hy
            by_cases hxs : x ∈ s.stars
            · simp only [hxs, if_true] at hy; cases hy
            · exact hxs
          have hpb : putF f b false x s = some (PutRes.ok s1) := by
            unfold nbrStep at hy
            simp only [hys, if_false] at hy
            exact hy
          have h1 : x ∉ s1.unknowns := putBlank_clears f b x s s1 hpb
          have h2 : x ∉ s1.stars := putBlank_not_star f b x s s1 hpb hys
          have hst := runLoop_steps (nbrStep_steps f b) _ _ _ h
          constructor
          · intro hc
            rcases Finset.mem_union.mp (hst.2.2.2.1 hc) with hm | hm
            · exact h2 hm
            · exact h1 hm
          · exact fun hc => h1 (hst.2.1 hc)
        · exact ih s1 r h x hx2
      | fail s1 => rw [show (some (PutRes.fail s1) = some (PutRes.ok r)) ↔ False by simp] at h; cases h
      | err s1 => rw [show (some (PutRes.err s1) = some (PutRes.ok r)) ↔ False by simp] at h; cases h

/-- One unit-loop iteration of `put_blank` is an `OkStep` when it succeeds,
given that forced `put_star` calls are. -/
theorem unitStep_okstep {f : Nat} {b : Board}
    (hok : ∀ c t r1, Disjoint t.stars t.unknowns →
      putF f b true c t = some (PutRes.ok r1) → OkStep b t r1) :
    ∀ u t r1, Disjoint t.stars t.unknowns →
      unitStep (putF f b true) b u t = some (PutRes.ok r1) → OkStep b t r1 := by
  intro u t r1 hd hu
  unfold unitStep at hu
  by_cases hlt : count_stars u t + (u ∩ t.unknowns).card < b.S
  · simp [hlt] at hu
  · simp only [hlt, if_false] at hu
    by_cases heq : count_stars u t + (u ∩ t.unknowns).card = b.S
    · simp only [heq, if_true] at hu
      exact runLoop_ok hok _ _ _ hd hu
    · simp only [heq, if_false] at hu; cases hu; exact OkStep.okstep_refl

/-- After the unit loop of `put_blank` succeeds, every processed unit meets
its quota lower bound in the final state. -/
theorem runLoop_unit_checked {f : Nat} {b : Board}
    (hok : ∀ c t r1, Disjoint t.stars t.unknowns →
      putF f b true c t = some (PutRes.ok r1) → OkStep b t r1) :
    ∀ (us : List (Finset Nat)) (s r : St), Disjoint s.stars s.unknowns →
      (∀ u ∈ us, u ∈ b.units) →
      runLoop (unitStep (putF f b true) b) us s = some (PutRes.ok r) →
      ∀ u ∈ us, b.S ≤ quota u r := by
  intro us
  induction us with
  | nil => intro s r _ _ _ u hu; cases hu
  | cons u0 us ih =>
    intro s r hd hmem h u hu
    simp only [runLoop] at h
    cases hstep : unitStep (putF f b true) b u0 s with
    | none => rw [hstep] at h; cases h
    | some r1 =>
      rw [hstep] at h
      cases r1 with
      | ok m =>
        have hm : OkStep b s m := unitStep_okstep hok u0 s m hd hstep
        have hdm : Disjoint m.stars m.unknowns := hm.1.2.2.2.2 hd
        have hrest : OkStep b m r :=
          runLoop_ok (unitStep_okstep hok) _ _ _ hdm h
        rcases List.mem_cons.mp hu with rfl | hu2
        · -- the head unit was checked by its own iteration
          have hu0 : u ∈ b.units := hmem u (List.mem_cons_self u us)
          unfold unitStep at hstep
          by_cases hlt : count_stars u s + (u ∩ s.unknowns).card < b.S
          · simp [hlt] at hstep
          · simp only [hlt, if_false] at hstep
            by_cases heq : count_stars u s + (u ∩ s.unknowns).card = b.S
            · -- slack zero: forcing kept the quota exactly at S
              simp only [heq, if_true] at hstep
              have hforce : OkStep b s m := runLoop_ok hok _ _ _ hd hstep
              have hqs : quota u s = b.S := heq
              obtain ⟨le1, k1⟩ := hforce.2.1 u hu0
              have hqm : b.S ≤ quota u m := by
                rcases lt_or_eq_of_le le1 with hc | hc
                · exact k1 hc
                · omega
              obtain ⟨le2, k2⟩ := hrest.2.1 u hu0
              rcases lt_or_eq_of_le le2 with hc | hc
              · exact k2 hc
              · omega
            · -- quota strictly above S: it can only fall back to S with recheck
              simp only [heq, if_false] at hstep
              cases hstep
              have hqs : b.S < quota u s := by
                unfold quota; omega
              obtain ⟨le2, k2⟩ := hrest.2.1 u hu0
              rcases lt_or_eq_of_le le2 with hc | hc
              · exact k2 hc
              · omega
        · exact ih m r hdm (fun v hv => hmem v (List.mem_cons_of_mem u0 hv)) h u hu2
      | fail m => rw [show (some (PutRes.fail m) = some (PutRes.ok r)) ↔ False by simp] at h; cases h
      | err m => rw [show (some (PutRes.err m) = some (PutRes.ok r)) ↔ False by simp] at h; cases h

theorem mem_units_for {b : Board} (hwf : WfB b) {cell : Nat} {u : Finset Nat} :
    u ∈ b.units_for cell ↔ u ∈ b.units ∧ cell ∈ u := by
  rw [hwf cell]
  simp [List.mem_filter]

/-- Main invariant theorem: a successful `put_star`/`put_blank` call is an
`OkStep` (frame, quota accounting, cap preservation, cleared neighborhoods
of new stars), and a successful non-trivial `put_blank` leaves every unit of
its cell at or above the quota target. -/
theorem putF_ok_main :
    ∀ (f : Nat) (b : Board) (is : Bool) (cell : Nat) (s : St) (r : St),
      WfB b → Disjoint s.stars s.unknowns →
      putF f b is cell s = some (PutRes.ok r) →
      OkStep b s r ∧
      (is = false → cell ∈ s.unknowns → ∀ u ∈ b.units_for cell, b.S ≤ quota u r) := by
  intro f
  induction f with
  | zero => intro b is cell s r _ _ h; simp [putF] at h
  | succ f ih =>
    intro b is cell s r hwf hd h
    have hok_true : ∀ c t r1, Disjoint t.stars t.unknowns →
        putF f b true c t = some (PutRes.ok r1) → OkStep b t r1 :=
      fun c t r1 hdt hx => (ih b true c t r1 hwf hdt hx).1
    cases is with
    | true =>
      simp only [putF] at h
      by_cases h1 : cell ∈ s.stars
      · simp only [h1, if_true] at h
        cases h
        exact ⟨OkStep.okstep_refl, fun hc => nomatch hc⟩
      · simp only [h1, if_false] at h
        by_cases h2 : cell ∈ s.unknowns
        · simp only [h2, if_true] at h
          by_cases h3 : (b.units_for cell).any
              (fun u => decide (b.S < count_stars u ⟨s.units, insert cell s.stars, s.unknowns.erase cell⟩))
          · simp only [h3, if_true] at h; cases h
          · simp only [h3, if_false] at h
            have hguard : ∀ u ∈ b.units_for cell,
                count_stars u ⟨s.units, insert cell s.stars, s.unknowns.erase cell⟩ ≤ b.S := by
              intro u hu
              have := List.any_eq_false.mp (Bool.eq_false_iff.mpr h3) u hu
              simp only [decide_eq_true_eq] at this
              omega
            have hds1 : Disjoint (insert cell s.stars) (s.unknowns.erase cell) :=
              disjoint_move hd
            have hOk1 : OkStep b ⟨s.units, insert cell s.stars, s.unknowns.erase cell⟩ r := by
              refine runLoop_ok ?_ _ _ _ hds1 h
              intro x t r1 hdt hx
              unfold nbrStep at hx
              by_cases hxs : x ∈ t.stars
              · simp [hxs] at hx
              · simp only [hxs, if_false] at hx
                exact (ih b false x t r1 hwf hdt hx).1
            refine ⟨⟨(steps_move h2).steps_trans hOk1.1, ?_, ?_, ?_⟩, fun hc => nomatch hc⟩
            · intro u hu
              have hqeq : quota u ⟨s.units, insert cell s.stars, s.unknowns.erase cell⟩ =
                  quota u s := by
                by_cases hcu : cell ∈ u
                · exact quota_move_mem hcu h1 h2
                · exact quota_move_not_mem hcu
              obtain ⟨a1, a2⟩ := hOk1.2.1 u hu
              rw [hqeq] at a1 a2
              exact ⟨a1, a2⟩
            · intro hc
              refine hOk1.2.2.1 ?_
              intro u hu
              by_cases hcu : cell ∈ u
              · exact hguard u ((mem_units_for hwf).mpr ⟨hu, hcu⟩)
              · rw [count_stars_move_not_mem hcu]
                exact hc u hu
            · intro y hy hny x hx
              by_cases hyc : y = cell
              · subst hyc
                exact runLoop_nbr_cleared f b _ _ r h x (mem_ascList.mpr hx)
              · have hny1 : y ∉ (⟨s.units, insert cell s.stars, s.unknowns.erase cell⟩ : St).stars := by
                  show y ∉ insert cell s.stars
                  simp only [Finset.mem_insert]
                  rintro (rfl | hm)
                  · exact hyc rfl
                  · exact hny hm
                exact hOk1.2.2.2 y hy hny1 x hx
        · simp only [h2, if_false] at h; cases h
    | false =>
      simp only [putF] at h
      by_cases h2 : cell ∈ s.unknowns
      · simp only [h2, if_true] at h
        have hds1 : Disjoint s.stars (s.unknowns.erase cell) :=
          Finset.disjoint_of_subset_right (Finset.erase_subset _ _) hd
        have hOk1 : OkStep b ⟨s.units, s.stars, s.unknowns.erase cell⟩ r :=
          runLoop_ok (unitStep_okstep hok_true) _ _ _ hds1 h
        have hchecked : ∀ u ∈ b.units_for cell, b.S ≤ quota u r := by
          refine runLoop_unit_checked hok_true (b.units_for cell)
            ⟨s.units, s.stars, s.unknowns.erase cell⟩ r hds1 ?_ h
          intro u hu
          exact ((mem_units_for hwf).mp hu).1
        refine ⟨⟨steps_erase.steps_trans hOk1.1, ?_, ?_, ?_⟩, fun _ _ => hchecked⟩
        · intro u hu
          by_cases hcu : cell ∈ u
          · have hq1 : quota u ⟨s.units, s.stars, s.unknowns.erase cell⟩ + 1 = quota u s :=
              quota_erase_mem hcu h2
            have hle : quota u r ≤ quota u ⟨s.units, s.stars, s.unknowns.erase cell⟩ :=
              (hOk1.2.1 u hu).1
            have hS : b.S ≤ quota u r := hchecked u ((mem_units_for hwf).mpr ⟨hu, hcu⟩)
            exact ⟨by omega, fun _ => hS⟩
          · have hqeq : quota u ⟨s.units, s.stars, s.unknowns.erase cell⟩ = quota u s :=
              quota_erase_not_mem hcu
            obtain ⟨a1, a2⟩ := hOk1.2.1 u hu
            rw [hqeq] at a1 a2
            exact ⟨a1, a2⟩
        · intro hc
          refine hOk1.2.2.1 ?_
          intro u hu
          exact hc u hu
        · intro y hy hny x hx
          exact hOk1.2.2.2 y hy hny x hx
      · simp only [h2, if_false] at h
        cases h
        exact ⟨OkStep.okstep_refl, fun _ hc => absurd hc h2⟩

/-- Successful propagation preserves the adjacency invariant: stars keep
fully-blank neighborhoods. -/
theorem putF_adj {f : Nat} {b : Board} {is : Bool} {cell : Nat} {s r : St}
    (hwf : WfB b) (hd : Disjoint s.stars s.unknowns) (ha : Adj b s)
    (h : putF f b is cell s = some (PutRes.ok r)) : Adj b r := by
  obtain ⟨hst, _, _, hnsc⟩ := (putF_ok_main f b is cell s r hwf hd h).1
  intro y hy x hx
  by_cases hys : y ∈ s.stars
  · obtain ⟨hxs, hxu⟩ := ha y hys x hx
    constructor
    · intro hc
      rcases Finset.mem_union.mp (hst.2.2.2.1 hc) with hm | hm
      · exact hxs hm
      · exact hxu hm
    · exact fun hc => hxu (hst.2.1 hc)
  · exact hnsc y hy hys x hx

/-! ### `put_star`/`put_blank` never raise from legitimate calls -/

/-- The forcing loop of `put_blank` keeps the forced unit's quota pinned at
`S`, so no forced cell can have been resolved to blank in between: the
nested `put_star` calls never see an already-blank cell, hence never raise. -/
theorem force_noerr_aux (f : Nat) (b : Board) (hwf : WfB b) (u : Finset Nat)
    (hu : u ∈ b.units)
    (ihstar : ∀ c t r1, Disjoint t.stars t.unknowns → (c ∈ t.stars ∨ c ∈ t.unknowns) →
      putF f b true c t = some r1 → ∀ w, r1 ≠ PutRes.err w) :
    ∀ (cs : List Nat) (s : St) (r : PutRes), Disjoint s.stars s.unknowns →
      quota u s = b.S →
      (∀ c ∈ cs, c ∈ u ∧ (c ∈ s.stars ∨ c ∈ s.unknowns)) →
      runLoop (putF f b true) cs s = some r → ∀ w, r ≠ PutRes.err w := by
  intro cs
  induction cs with
  | nil => intro s r _ _ _ h w; simp only [runLoop] at h; cases h; simp
  | cons c cs ih =>
    intro s r hd hq hmem h w
    simp only [runLoop] at h
    cases hc : putF f b true c s with
    | none => rw [hc] at h; cases h
    | some r1 =>
      rw [hc] at h
      cases r1 with
      | ok s1 =>
        have hOk : OkStep b s s1 :=
          (putF_ok_main f b true c s s1 hwf hd hc).1
        have hd1 : Disjoint s1.stars s1.unknowns := hOk.1.2.2.2.2 hd
        have hq1 : quota u s1 = b.S := by
          obtain ⟨a1, a2⟩ := hOk.2.1 u hu
          omega
        have hsetsub : u ∩ (s1.stars ∪ s1.unknowns) ⊆ u ∩ (s.stars ∪ s.unknowns) := by
          refine Finset.inter_subset_inter (le_refl u) ?_
          intro x hx
          rcases Finset.mem_union.mp hx with hm | hm
          · exact hOk.1.2.2.2.1 hm
          · exact Finset.mem_union_right _ (hOk.1.2.1 hm)
        have hseteq : u ∩ (s1.stars ∪ s1.unknowns) = u ∩ (s.stars ∪ s.unknowns) := by
          refine Finset.eq_of_subset_of_card_le hsetsub ?_
          rw [← quota_eq_card hd, ← quota_eq_card hd1, hq, hq1]
        refine ih s1 r hd1 hq1 ?_ h w
        intro x hx
        obtain ⟨hxu, hxm⟩ := hmem x (List.mem_cons_of_mem c hx)
        have : x ∈ u ∩ (s.stars ∪ s.unknowns) :=
          Finset.mem_inter.mpr ⟨hxu, Finset.mem_union.mpr hxm⟩
        rw [← hseteq] at this
        obtain ⟨_, hx2⟩ := Finset.mem_inter.mp this
        exact ⟨hxu, Finset.mem_union.mp hx2⟩
      | fail s1 => cases h; simp
      | err s1 =>
        exact absurd rfl (ihstar c s (PutRes.err s1) hd (hmem c (List.mem_cons_self c cs)).2 hc s1)

/-- The neighbor loop of `put_star` never raises, because `put_blank` never
does. -/
theorem nbr_noerr_aux (f : Nat) (b : Board)
    (ihblank : ∀ c t r1, Disjoint t.stars t.unknowns →
      putF f b false c t = some r1 → ∀ w, r1 ≠ PutRes.err w) :
    ∀ (xs : List Nat) (t : St) (r : PutRes), Disjoint t.stars t.unknowns →
      runLoop (nbrStep (putF f b false)) xs t = some r → ∀ w, r ≠ PutRes.err w := by
  intro xs
  induction xs with
  | nil => intro t r _ h w; simp only [runLoop] at h; cases h; simp
  | cons x xs ih =>
    intro t r hd h w
    simp only [runLoop] at h
    cases hx : nbrStep (putF f b false) x t with
    | none => rw [hx] at h; cases h
    | some r1 =>
      rw [hx] at h
      have hr1 : ∀ w1, r1 ≠ PutRes.err w1 := by
        unfold nbrStep at hx
        by_cases hxs : x ∈ t.stars
        · simp only [hxs, if_true] at hx; cases hx; simp
        · simp only [hxs, if_false] at hx
          exact ihblank x t r1 hd hx
      cases r1 with
      | ok s1 =>
        have hst : Steps t s1 := nbrStep_steps f b x t (PutRes.ok s1) hx
        exact ih s1 r (hst.2.2.2.2 hd) h w
      | fail s1 => cases h; simp
      | err s1 => exact absurd rfl (hr1 s1)

/-- The unit loop of `put_blank` never raises: the only raises could come
from forced `put_star` calls, and the forcing loop never reaches an
already-blank cell. -/
theorem unit_noerr_aux (f : Nat) (b : Board) (hwf : WfB b)
    (ihstar : ∀ c t r1, Disjoint t.stars t.unknowns → (c ∈ t.stars ∨ c ∈ t.unknowns) →
      putF f b true c t = some r1 → ∀ w, r1 ≠ PutRes.err w) :
    ∀ (us : List (Finset Nat)) (t : St) (r : PutRes), Disjoint t.stars t.unknowns →
      (∀ u ∈ us, u ∈ b.units) →
      runLoop (unitStep (putF f b true) b) us t = some r → ∀ w, r ≠ PutRes.err w := by
  intro us
  induction us with
  | nil => intro t r _ _ h w; simp only [runLoop] at h; cases h; simp
  | cons u0 us ih =>
    intro t r hd hmemu h w
    simp only [runLoop] at h
    cases hu0 : unitStep (putF f b true) b u0 t with
    | none => rw [hu0] at h; cases h
    | some r1 =>
      rw [hu0] at h
      have hr1 : ∀ w1, r1 ≠ PutRes.err w1 := by
        unfold unitStep at hu0
        by_cases hlt : count_stars u0 t + (u0 ∩ t.unknowns).card < b.S
        · simp only [hlt, if_true] at hu0; cases hu0; simp
        · simp only [hlt, if_false] at hu0
          by_cases heq : count_stars u0 t + (u0 ∩ t.unknowns).card = b.S
          · simp only [heq, if_true] at hu0
            refine force_noerr_aux f b hwf u0
              (hmemu u0 (List.mem_cons_self u0 us)) ihstar _ t r1 hd heq ?_ hu0
            intro c hc
            obtain ⟨hc1, hc2⟩ := Finset.mem_inter.mp (mem_ascList.mp hc)
            exact ⟨hc1, Or.inr hc2⟩
          · simp only [heq, if_false] at hu0; cases hu0; simp
      cases r1 with
      | ok s1 =>
        have hst : Steps t s1 := unitStep_steps f b u0 t (PutRes.ok s1) hu0
        exact ih s1 r (hst.2.2.2.2 hd)
          (fun u hu => hmemu u (List.mem_cons_of_mem u0 hu)) h w
      | fail s1 => cases h; simp
      | err s1 => exact absurd rfl (hr1 s1)

/-- `put_star` on a starred or unknown cell, and `put_blank` on any cell,
never raise `KeyError`. -/
theorem putF_noerr :
    ∀ (f : Nat) (b : Board) (is : Bool) (cell : Nat) (s : St) (r : PutRes),
      WfB b → Disjoint s.stars s.unknowns →
      (is = true → cell ∈ s.stars ∨ cell ∈ s.unknowns) →
      putF f b is cell s = some r → ∀ w, r ≠ PutRes.err w := by
  intro f
  induction f with
  | zero => intro b is cell s r _ _ _ h; simp [putF] at h
  | succ f ih =>
    intro b is cell s r hwf hd hmem h w
    have ihstar : ∀ c t r1, Disjoint t.stars t.unknowns → (c ∈ t.stars ∨ c ∈ t.unknowns) →
        putF f b true c t = some r1 → ∀ w1, r1 ≠ PutRes.err w1 :=
      fun c t r1 hdt hct hx => ih b true c t r1 hwf hdt (fun _ => hct) hx
    have ihblank : ∀ c t r1, Disjoint t.stars t.unknowns →
        putF f b false c t = some r1 → ∀ w1, r1 ≠ PutRes.err w1 :=
      fun c t r1 hdt hx => ih b false c t r1 hwf hdt (fun hc => nomatch hc) hx
    cases is with
    | true =>
      simp only [putF] at h
      by_cases h1 : cell ∈ s.stars
      · simp only [h1, if_true] at h; cases h; simp
      · simp only [h1, if_false] at h
        by_cases h2 : cell ∈ s.unknowns
        · simp only [h2, if_true] at h
          by_cases h3 : (b.units_for cell).any
              (fun u => decide (b.S < count_stars u ⟨s.units, insert cell s.stars, s.unknowns.erase cell⟩))
          · simp only [h3, if_true] at h; cases h; simp
          · simp only [h3, if_false] at h
            exact nbr_noerr_aux f b ihblank _ _ r (disjoint_move hd) h w
        · simp only [h2, if_false] at h
          cases h
          rcases hmem rfl with hc | hc
          · exact absurd hc h1
          · exact absurd hc h2
    | false =>
      simp only [putF] at h
      by_cases h2 : cell ∈ s.unknowns
      · simp only [h2, if_true] at h
        refine unit_noerr_aux f b hwf ihstar (b.units_for cell)
          ⟨s.units, s.stars, s.unknowns.erase cell⟩ r
          (Finset.disjoint_of_subset_right (Finset.erase_subset _ _) hd) ?_ h w
        intro u hu
        exact ((mem_units_for hwf).mp hu).1
      · simp only [h2, if_false] at h; cases h; simp

/-! ### Search-level invariants and soundness -/

theorem is_solution_iff {b : Board} {P : Finset Nat} :
    is_solution b P = true ↔
      (∀ u ∈ b.units, (P ∩ u).card = b.S) ∧
      (∀ c1 ∈ P, ∀ c2 ∈ P, c1 ∉ neighbors c2 b.N) := by
  unfold is_solution
  simp only [Bool.and_eq_true, List.all_eq_true, beq_iff_eq, mem_ascList,
    Bool.not_eq_true', decide_eq_false_iff_not]

/-- Invariant carried through the search recursion. -/
def SInv (b : Board) (s : St) : Prop :=
  Disjoint s.stars s.unknowns ∧ Capped b s ∧ Adj b s ∧
  (∀ u ∈ s.units, u ∈ b.units) ∧
  (∀ u ∈ b.units, u ∈ s.units ∨ count_stars u s = b.S)

theorem sinv_initial (b : Board) : SInv b (initial_state b) := by
  have hperm := List.perm_insertionSort (fun u v : Finset Nat => u.card ≤ v.card) b.units
  refine ⟨Finset.disjoint_empty_left _, ?_, ?_, ?_, ?_⟩
  · intro u _
    show (u ∩ (∅ : Finset Nat)).card ≤ b.S
    simp
  · exact fun y hy => absurd hy (Finset.not_mem_empty y)
  · intro u hu
    exact hperm.mem_iff.mp hu
  · intro u hu
    exact Or.inl (hperm.mem_iff.mpr hu)

theorem dropFilled_suffix (b : Board) (s : St) : dropFilled b s <:+ s.units := by
  unfold dropFilled
  generalize s.units = l
  induction l with
  | nil => exact List.suffix_rfl
  | cons a l ih =>
    rw [List.dropWhile_cons]
    split
    · exact ih.trans (List.suffix_cons a l)
    · exact List.suffix_rfl

theorem dropFilled_pending {b : Board} {s : St}
    (hp : ∀ u ∈ b.units, u ∈ s.units ∨ count_stars u s = b.S) :
    ∀ u ∈ b.units, u ∈ dropFilled b s ∨ count_stars u s = b.S := by
  intro u hu
  rcases hp u hu with hin | hc
  · by_cases hdm : u ∈ dropFilled b s
    · exact Or.inl hdm
    · right
      have hin2 : u ∈ s.units.takeWhile (fun v => count_stars v s == b.S) ++
          s.units.dropWhile (fun v => count_stars v s == b.S) := by
        rw [List.takeWhile_append_dropWhile]
        exact hin
      rcases List.mem_append.mp hin2 with hm | hm
      · have hpred := List.mem_takeWhile_imp hm
        exact beq_iff_eq.mp hpred
      · exact absurd hm hdm
  · exact Or.inr hc

theorem put_star_ok_putF {b : Board} {c : Nat} {s s1 : St}
    (h : put_star b c s = PutRes.ok s1) :
    putF (s.unknowns.card + 1) b true c s = some (PutRes.ok s1) := by
  have heq := put_star_eq b c s
  rw [h] at heq
  exact heq

/-- Unfolding equations for the guess loop. -/
theorem gLoop_nil (rec : St → Option (List St × Bool)) (b : Board) (s : St) :
    gLoop rec b s [] = some ([], false) := rfl

theorem gLoop_cons_ok {rec : St → Option (List St × Bool)} {b : Board} {s s1 : St}
    {c : Nat} {cs : List Nat} (h : put_star b c s = PutRes.ok s1) :
    gLoop rec b s (c :: cs) =
      match rec s1 with
      | none => none
      | some (l, true) => some (l, true)
      | some (l, false) =>
        match gLoop rec b s cs with
        | none => none
        | some (l2, e2) => some (l ++ l2, e2) := by
  simp only [gLoop, h]

theorem gLoop_cons_fail {rec : St → Option (List St × Bool)} {b : Board} {s s1 : St}
    {c : Nat} {cs : List Nat} (h : put_star b c s = PutRes.fail s1) :
    gLoop rec b s (c :: cs) = gLoop rec b s cs := by
  simp only [gLoop, h]

theorem gLoop_cons_err {rec : St → Option (List St × Bool)} {b : Board} {s s1 : St}
    {c : Nat} {cs : List Nat} (h : put_star b c s = PutRes.err s1) :
    gLoop rec b s (c :: cs) = some ([], true) := by
  simp only [gLoop, h]

/-- A successful guess preserves the search invariant. -/
theorem sinv_guess {b : Board} {c : Nat} {s s1 : St} (hwf : WfB b) (hsi : SInv b s)
    (h : put_star b c s = PutRes.ok s1) : SInv b s1 := by
  obtain ⟨hd, hcap, hadj, hum, hpend⟩ := hsi
  have hput := put_star_ok_putF h
  have hOk := (putF_ok_main _ b true c s s1 hwf hd hput).1
  have hcap1 : Capped b s1 := hOk.2.2.1 hcap
  refine ⟨hOk.1.2.2.2.2 hd, hcap1, putF_adj hwf hd hadj hput, ?_, ?_⟩
  · intro u hu
    rw [hOk.1.1] at hu
    exact hum u hu
  · intro u hu
    rcases hpend u hu with hin | hc
    · exact Or.inl (hOk.1.1 ▸ hin)
    · right
      have hmono : count_stars u s ≤ count_stars u s1 := count_stars_mono hOk.1.2.2.1
      have := hcap1 u hu
      omega

/-- Unfolding equations for `searchF`. -/
theorem searchF_succ_nil {f : Nat} {b : Board} {s : St} (h : dropFilled b s = []) :
    searchF (f + 1) b s = some ([⟨[], s.stars, s.unknowns⟩], false) := by
  simp only [searchF, h]

theorem searchF_succ_cons {f : Nat} {b : Board} {s : St} {u : Finset Nat}
    {rest : List (Finset Nat)} (h : dropFilled b s = u :: rest) :
    searchF (f + 1) b s =
      gLoop (searchF f b) b ⟨u :: rest, s.stars, s.unknowns⟩ (ascList (u ∩ s.unknowns)) := by
  simp only [searchF, h]

theorem sinv_dropped {b : Board} {s : St} {u : Finset Nat} {rest : List (Finset Nat)}
    (hsi : SInv b s) (hdrop : dropFilled b s = u :: rest) :
    SInv b ⟨u :: rest, s.stars, s.unknowns⟩ := by
  obtain ⟨hd, hcap, hadj, hum, hpend⟩ := hsi
  refine ⟨hd, hcap, hadj, ?_, ?_⟩
  · intro v hv
    exact hum v ((dropFilled_suffix b s).subset (hdrop ▸ hv))
  · intro v hv
    rcases dropFilled_pending hpend v hv with hin | hc
    · exact Or.inl (by rw [hdrop] at hin; exact hin)
    · exact Or.inr hc

/-- Soundness of every yield: it satisfies the full solution check and its
stars lie inside the cells the search started from. -/
theorem searchF_sound :
    ∀ (f : Nat) (b : Board) (s : St) (l : List St) (e : Bool),
      WfB b → SInv b s → searchF f b s = some (l, e) →
      ∀ t ∈ l, is_solution b t.stars = true ∧ t.stars ⊆ s.stars ∪ s.unknowns := by
  intro f
  induction f with
  | zero => intro b s l e _ _ h; simp [searchF] at h
  | succ f ih =>
    intro b s l e hwf hsi h
    cases hdrop : dropFilled b s with
    | nil =>
      rw [searchF_succ_nil hdrop] at h
      obtain ⟨rfl, rfl⟩ : [(⟨[], s.stars, s.unknowns⟩ : St)] = l ∧ false = e := by
        injection h with h1; injection h1 with h2 h3; exact ⟨h2, h3⟩
      intro t ht
      rcases List.mem_singleton.mp ht with rfl
      obtain ⟨hd, hcap, hadj, hum, hpend⟩ := hsi
      constructor
      · rw [is_solution_iff]
        constructor
        · intro u hu
          have hc : count_stars u s = b.S := by
            rcases dropFilled_pending hpend u hu with hin | hc
            · rw [hdrop] at hin; cases hin
            · exact hc
          show (s.stars ∩ u).card = b.S
          rw [Finset.inter_comm]
          exact hc
        · intro c1 h1 c2 h2 hn
          exact (hadj c2 h2 c1 hn).1 h1
      · exact Finset.subset_union_left
    | cons u rest =>
      rw [searchF_succ_cons hdrop] at h
      have hsi1 : SInv b ⟨u :: rest, s.stars, s.unknowns⟩ := sinv_dropped hsi hdrop
      -- inner induction over the candidate list
      suffices haux : ∀ (cs : List Nat) (s0 : St) (l0 : List St) (e0 : Bool), SInv b s0 →
          s0.stars = s.stars → s0.unknowns = s.unknowns →
          gLoop (searchF f b) b s0 cs = some (l0, e0) →
          ∀ t ∈ l0, is_solution b t.stars = true ∧ t.stars ⊆ s.stars ∪ s.unknowns by
        exact haux _ _ l e hsi1 rfl rfl h
      intro cs
      induction cs with
      | nil =>
        intro s0 l0 e0 _ _ _ hg t ht
        rw [gLoop_nil] at hg
        obtain ⟨rfl, rfl⟩ : ([] : List St) = l0 ∧ false = e0 := by
          injection hg with h1; injection h1 with h2 h3; exact ⟨h2, h3⟩
        cases ht
      | cons c cs ihc =>
        intro s0 l0 e0 hsi0 hstars0 hunk0 hg t ht
        cases hps : put_star b c s0 with
        | ok s1 =>
          rw [gLoop_cons_ok hps] at hg
          have hsi2 : SInv b s1 := sinv_guess hwf hsi0 hps
          have hOk := (putF_ok_main _ b true c s0 s1 hwf hsi0.1 (put_star_ok_putF hps)).1
          have hsub : s1.stars ∪ s1.unknowns ⊆ s.stars ∪ s.unknowns := by
            intro x hx
            rcases Finset.mem_union.mp hx with hm | hm
            · exact hstars0 ▸ hunk0 ▸ hOk.1.2.2.2.1 hm
            · exact Finset.mem_union_right _ (hunk0 ▸ hOk.1.2.1 hm)
          cases hrec : searchF f b s1 with
          | none => rw [hrec] at hg; cases hg
          | some p =>
            obtain ⟨l1, e1⟩ := p
            rw [hrec] at hg
            cases e1 with
            | true =>
              obtain ⟨rfl, rfl⟩ : l1 = l0 ∧ true = e0 := by
                injection hg with h1; injection h1 with h2 h3; exact ⟨h2, h3⟩
              obtain ⟨hv, hs⟩ := ih b s1 _ true hwf hsi2 hrec t ht
              exact ⟨hv, hs.trans hsub⟩
            | false =>
              cases htail : gLoop (searchF f b) b s0 cs with
              | none => rw [htail] at hg; cases hg
              | some q =>
                obtain ⟨l2, e2⟩ := q
                rw [htail] at hg
                obtain ⟨rfl, rfl⟩ : l1 ++ l2 = l0 ∧ e2 = e0 := by
                  injection hg with h1; injection h1 with h2 h3; exact ⟨h2, h3⟩
                rcases List.mem_append.mp ht with hm | hm
                · obtain ⟨hv, hs⟩ := ih b s1 l1 false hwf hsi2 hrec t hm
                  exact ⟨hv, hs.trans hsub⟩
                · exact ihc s0 l2 e2 hsi0 hstars0 hunk0 htail t hm
        | fail s1 =>
          rw [gLoop_cons_fail hps] at hg
          exact ihc s0 l0 e0 hsi0 hstars0 hunk0 hg t ht
        | err s1 =>
          rw [gLoop_cons_err hps] at hg
          obtain ⟨rfl, rfl⟩ : ([] : List St) = l0 ∧ true = e0 := by
            injection hg with h1; injection h1 with h2 h3; exact ⟨h2, h3⟩
          cases ht

theorem put_star_noerr {b : Board} {c : Nat} {s : St} (hwf : WfB b)
    (hd : Disjoint s.stars s.unknowns) (hc : c ∈ s.unknowns) :
    ∀ w, put_star b c s ≠ PutRes.err w := by
  intro w hw
  have heq := put_star_eq b c s
  rw [hw] at heq
  exact putF_noerr _ b true c s _ hwf hd (fun _ => Or.inr hc) heq w rfl

/-- A successful guess on an unknown cell strictly shrinks the unknowns. -/
theorem put_star_shrinks {b : Board} {c : Nat} {s s1 : St}
    (hd : Disjoint s.stars s.unknowns) (hc : c ∈ s.unknowns)
    (h : put_star b c s = PutRes.ok s1) : s1.unknowns.card < s.unknowns.card := by
  have hput := put_star_ok_putF h
  have hst : Steps s s1 := by
    have := putF_steps _ b true c s (PutRes.ok s1) hput
    exact this
  have hadds := putStar_adds _ b c s s1 hd hput
  have hsub : s1.unknowns ⊆ s.unknowns.erase c := by
    intro x hx
    exact Finset.mem_erase.mpr ⟨fun he => hadds.2 (he ▸ hx), hst.2.1 hx⟩
  calc s1.unknowns.card ≤ (s.unknowns.erase c).card := Finset.card_le_card hsub
    _ < s.unknowns.card := by
        rw [Finset.card_erase_of_mem hc]
        have : 0 < s.unknowns.card := Finset.card_pos.mpr ⟨c, hc⟩
        omega

/-- Fuel adequacy for `search`: fuel exceeding the number of unknown cells
never runs out. -/
theorem searchF_isSome :
    ∀ (f : Nat) (b : Board) (s : St), Disjoint s.stars s.unknowns →
      s.unknowns.card < f → (searchF f b s).isSome := by
  intro f
  induction f with
  | zero => intro b s _ h; omega
  | succ f ih =>
    intro b s hd hcard
    cases hdrop : dropFilled b s with
    | nil => rw [searchF_succ_nil hdrop]; simp
    | cons u rest =>
      rw [searchF_succ_cons hdrop]
      have hmem0 : ∀ c ∈ ascList (u ∩ s.unknowns),
          c ∈ (⟨u :: rest, s.stars, s.unknowns⟩ : St).unknowns := by
        intro c hc
        exact (Finset.mem_inter.mp (mem_ascList.mp hc)).2
      suffices haux : ∀ (cs : List Nat) (s0 : St), Disjoint s0.stars s0.unknowns →
          (∀ c ∈ cs, c ∈ s0.unknowns) → s0.unknowns.card ≤ f →
          (gLoop (searchF f b) b s0 cs).isSome by
        exact haux _ _ hd hmem0 (by show s.unknowns.card ≤ f; omega)
      intro cs
      induction cs with
      | nil => intro s0 _ _ _; rw [gLoop_nil]; simp
      | cons c cs ihc =>
        intro s0 hd0 hmem hcard0
        cases hps : put_star b c s0 with
        | ok s1 =>
          rw [gLoop_cons_ok hps]
          have hd1 : Disjoint s1.stars s1.unknowns := by
            have := putF_steps _ b true c s0 (PutRes.ok s1) (put_star_ok_putF hps)
            exact this.2.2.2.2 hd0
          have hc1 : s1.unknowns.card < f := by
            have := put_star_shrinks hd0 (hmem c (List.mem_cons_self c cs)) hps
            omega
          have hrec := ih b s1 hd1 hc1
          cases hrecv : searchF f b s1 with
          | none => rw [hrecv] at hrec; cases hrec
          | some p =>
            obtain ⟨l1, e1⟩ := p
            cases e1 with
            | true => simp
            | false =>
              have htail := ihc s0 hd0 (fun x hx => hmem x (List.mem_cons_of_mem c hx)) hcard0
              cases htailv : gLoop (searchF f b) b s0 cs with
              | none => rw [htailv] at htail; cases htail
              | some q => obtain ⟨l2, e2⟩ := q; simp
        | fail s1 =>
          rw [gLoop_cons_fail hps]
          exact ihc s0 hd0 (fun x hx => hmem x (List.mem_cons_of_mem c hx)) hcard0
        | err s1 => rw [gLoop_cons_err hps]; simp

/-- The search generator never ends in a raised `KeyError`: every `put_star`
it attempts is on an unknown cell of a cloned state. -/
theorem searchF_noerr :
    ∀ (f : Nat) (b : Board) (s : St) (l : List St) (e : Bool),
      WfB b → Disjoint s.stars s.unknowns → searchF f b s = some (l, e) → e = false := by
  intro f
  induction f with
  | zero => intro b s l e _ _ h; simp [searchF] at h
  | succ f ih =>
    intro b s l e hwf hd h
    cases hdrop : dropFilled b s with
    | nil =>
      rw [searchF_succ_nil hdrop] at h
      injection h with h1
      injection h1 with _ h3
      exact h3.symm
    | cons u rest =>
      rw [searchF_succ_cons hdrop] at h
      have hmem0 : ∀ c ∈ ascList (u ∩ s.unknowns),
          c ∈ (⟨u :: rest, s.stars, s.unknowns⟩ : St).unknowns := by
        intro c hc
        exact (Finset.mem_inter.mp (mem_ascList.mp hc)).2
      suffices haux : ∀ (cs : List Nat) (s0 : St) (l0 : List St) (e0 : Bool),
          Disjoint s0.stars s0.unknowns → (∀ c ∈ cs, c ∈ s0.unknowns) →
          gLoop (searchF f b) b s0 cs = some (l0, e0) → e0 = false by
        exact haux _ ⟨u :: rest, s.stars, s.unknowns⟩ l e hd hmem0 h
      intro cs
      induction cs with
      | nil =>
        intro s0 l0 e0 _ _ hg
        rw [gLoop_nil] at hg
        injection hg with h1
        injection h1 with _ h3
        exact h3.symm
      | cons c cs ihc =>
        intro s0 l0 e0 hd0 hmem hg
        cases hps : put_star b c s0 with
        | ok s1 =>
          rw [gLoop_cons_ok hps] at hg
          have hd1 : Disjoint s1.stars s1.unknowns := by
            have := putF_steps _ b true c s0 (PutRes.ok s1) (put_star_ok_putF hps)
            exact this.2.2.2.2 hd0
          cases hrec : searchF f b s1 with
          | none => rw [hrec] at hg; cases hg
          | some p =>
            obtain ⟨l1, e1⟩ := p
            rw [hrec] at hg
            have he1 : e1 = false := ih b s1 l1 e1 hwf hd1 hrec
            subst he1
            cases htail : gLoop (searchF f b) b s0 cs with
            | none => rw [htail] at hg; cases hg
            | some q =>
              obtain ⟨l2, e2⟩ := q
              rw [htail] at hg
              injection hg with h1
              injection h1 with _ h3
              rw [← h3]
              exact ihc s0 l2 e2 hd0 (fun x hx => hmem x (List.mem_cons_of_mem c hx)) htail
        | fail s1 =>
          rw [gLoop_cons_fail hps] at hg
          exact ihc s0 l0 e0 hd0 (fun x hx => hmem x (List.mem_cons_of_mem c hx)) hg
        | err s1 =>
          exact absurd hps (put_star_noerr hwf hd0 (hmem c (List.mem_cons_self c cs)) s1)

/-! ### Completeness: search finds every valid placement -/

/-- A valid placement, as a proposition (equivalent to `is_solution`). -/
def ValidP (b : Board) (P : Finset Nat) : Prop :=
  (∀ u ∈ b.units, (P ∩ u).card = b.S) ∧ (∀ c1 ∈ P, ∀ c2 ∈ P, c1 ∉ neighbors c2 b.N)

/-- The state is on the way to the placement `P`: every star it has placed
is in `P`, and no cell of `P` has been ruled out. -/
def Compat (P : Finset Nat) (s : St) : Prop :=
  s.stars ⊆ P ∧ P ⊆ s.stars ∪ s.unknowns

theorem count_le_of_compat {P u : Finset Nat} {t : St} {S : Nat}
    (hc : t.stars ⊆ P) (hcard : (P ∩ u).card = S) : count_stars u t ≤ S := by
  rw [← hcard]
  refine Finset.card_le_card ?_
  intro x hx
  obtain ⟨h1, h2⟩ := Finset.mem_inter.mp hx
  exact Finset.mem_inter.mpr ⟨hc h2, h1⟩

/-- The neighbor loop of a compatible `put_star` call succeeds: no neighbor
of a star of `P` is in `P`. -/
theorem nbr_compat_aux (f : Nat) (b : Board) (P : Finset Nat)
    (ihblank : ∀ cell t, Disjoint t.stars t.unknowns → Compat P t → cell ∉ P →
      t.unknowns.card < f →
      ∃ r, putF f b false cell t = some (PutRes.ok r) ∧ Compat P r) :
    ∀ (xs : List Nat) (t : St), (∀ x ∈ xs, x ∉ P) →
      Disjoint t.stars t.unknowns → Compat P t → t.unknowns.card < f →
      ∃ r, runLoop (nbrStep (putF f b false)) xs t = some (PutRes.ok r) ∧ Compat P r := by
  intro xs
  induction xs with
  | nil => intro t _ _ hc _; exact ⟨t, rfl, hc⟩
  | cons x xs ih =>
    intro t hxs hd hc hcard
    have hxP : x ∉ P := hxs x (List.mem_cons_self x xs)
    have hxstar : x ∉ t.stars := fun hx => hxP (hc.1 hx)
    obtain ⟨s1, hs1, hc1⟩ :=
      ihblank x t hd hc hxP hcard
    have hst : Steps t s1 := by
      have := putF_steps f b false x t (PutRes.ok s1) hs1
      exact this
    obtain ⟨r, hr, hcr⟩ := ih s1 (fun y hy => hxs y (List.mem_cons_of_mem x hy))
      (hst.2.2.2.2 hd) hc1 (lt_of_le_of_lt (Finset.card_le_card hst.2.1) hcard)
    refine ⟨r, ?_, hcr⟩
    simp only [runLoop, nbrStep, hxstar, if_false, hs1]
    exact hr

/-- The forcing loop of a compatible `put_blank` call succeeds: every forced
cell is a star of `P`. -/
theorem force_compat_aux (f : Nat) (b : Board) (P : Finset Nat)
    (ihstar : ∀ cell t, Disjoint t.stars t.unknowns → Compat P t → cell ∈ P →
      t.unknowns.card < f →
      ∃ r, putF f b true cell t = some (PutRes.ok r) ∧ Compat P r) :
    ∀ (cs : List Nat) (t : St), (∀ c ∈ cs, c ∈ P) →
      Disjoint t.stars t.unknowns → Compat P t → t.unknowns.card < f →
      ∃ r, runLoop (putF f b true) cs t = some (PutRes.ok r) ∧ Compat P r := by
  intro cs
  induction cs with
  | nil => intro t _ _ hc _; exact ⟨t, rfl, hc⟩
  | cons c cs ih =>
    intro t hcs hd hc hcard
    obtain ⟨s1, hs1, hc1⟩ := ihstar c t hd hc (hcs c (List.mem_cons_self c cs)) hcard
    have hst : Steps t s1 := by
      have := putF_steps f b true c t (PutRes.ok s1) hs1
      exact this
    obtain ⟨r, hr, hcr⟩ := ih s1 (fun y hy => hcs y (List.mem_cons_of_mem c hy))
      (hst.2.2.2.2 hd) hc1 (lt_of_le_of_lt (Finset.card_le_card hst.2.1) hcard)
    refine ⟨r, ?_, hcr⟩
    simp only [runLoop, hs1]
    exact hr

/-- The unit loop of a compatible `put_blank` call succeeds. -/
theorem unit_compat_aux (f : Nat) (b : Board) (P : Finset Nat) (hval : ValidP b P)
    (ihstar : ∀ cell t, Disjoint t.stars t.unknowns → Compat P t → cell ∈ P →
      t.unknowns.card < f →
      ∃ r, putF f b true cell t = some (PutRes.ok r) ∧ Compat P r) :
    ∀ (us : List (Finset Nat)) (t : St), (∀ u ∈ us, u ∈ b.units) →
      Disjoint t.stars t.unknowns → Compat P t → t.unknowns.card < f →
      ∃ r, runLoop (unitStep (putF f b true) b) us t = some (PutRes.ok r) ∧ Compat P r := by
  intro us
  induction us with
  | nil => intro t _ _ hc _; exact ⟨t, rfl, hc⟩
  | cons u0 us ih =>
    intro t hus hd hc hcard
    have hu0 : u0 ∈ b.units := hus u0 (List.mem_cons_self u0 us)
    have hcardP : (P ∩ u0).card = b.S := hval.1 u0 hu0
    -- the quota of u0 is at least S, since all of P ∩ u0 is star-or-unknown
    have hquota : b.S ≤ count_stars u0 t + (u0 ∩ t.unknowns).card := by
      have hsub : P ∩ u0 ⊆ u0 ∩ (t.stars ∪ t.unknowns) := by
        intro x hx
        obtain ⟨h1, h2⟩ := Finset.mem_inter.mp hx
        exact Finset.mem_inter.mpr ⟨h2, hc.2 h1⟩
      have := Finset.card_le_card hsub
      rw [← quota_eq_card hd] at this
      unfold quota at this
      omega
    have hstep : ∀ w, unitStep (putF f b true) b u0 t = w →
        (w = some (PutRes.ok t) ∧ count_stars u0 t + (u0 ∩ t.unknowns).card ≠ b.S) ∨
        (count_stars u0 t + (u0 ∩ t.unknowns).card = b.S ∧
          w = runLoop (putF f b true) (ascList (u0 ∩ t.unknowns)) t) := by
      intro w hw
      unfold unitStep at hw
      by_cases hlt : count_stars u0 t + (u0 ∩ t.unknowns).card < b.S
      · omega
      · simp only [hlt, if_false] at hw
        by_cases heq : count_stars u0 t + (u0 ∩ t.unknowns).card = b.S
        · simp only [heq, if_true] at hw
          exact Or.inr ⟨heq, hw.symm⟩
        · simp only [heq, if_false] at hw
          exact Or.inl ⟨hw.symm, heq⟩
    rcases hstep _ rfl with ⟨heq, _⟩ | ⟨hslack, heq⟩
    · -- quota strictly above S: the iteration is a no-op
      obtain ⟨r, hr, hcr⟩ := ih t (fun v hv => hus v (List.mem_cons_of_mem u0 hv)) hd hc hcard
      refine ⟨r, ?_, hcr⟩
      simp only [runLoop, heq]
      exact hr
    · -- slack exactly zero: all remaining unknowns of u0 are forced, and
      -- they are all stars of P
      have hforcedP : u0 ∩ t.unknowns ⊆ P := by
        have hdisj : Disjoint (u0 ∩ t.stars) (u0 ∩ t.unknowns) :=
          Finset.disjoint_of_subset_left Finset.inter_subset_right
            (Finset.disjoint_of_subset_right Finset.inter_subset_right hd)
        have hsub : P ∩ u0 ⊆ (u0 ∩ t.stars) ∪ (u0 ∩ t.unknowns) := by
          intro x hx
          obtain ⟨h1, h2⟩ := Finset.mem_inter.mp hx
          rcases Finset.mem_union.mp (hc.2 h1) with hm | hm
          · exact Finset.mem_union_left _ (Finset.mem_inter.mpr ⟨h2, hm⟩)
          · exact Finset.mem_union_right _ (Finset.mem_inter.mpr ⟨h2, hm⟩)
        have hcardeq : ((u0 ∩ t.stars) ∪ (u0 ∩ t.unknowns)).card = (P ∩ u0).card := by
          rw [Finset.card_union_of_disjoint hdisj, hcardP]
          show count_stars u0 t + (u0 ∩ t.unknowns).card = b.S
          exact hslack
        have hPeq : P ∩ u0 = (u0 ∩ t.stars) ∪ (u0 ∩ t.unknowns) :=
          Finset.eq_of_subset_of_card_le hsub (le_of_eq hcardeq)
        intro x hx
        have : x ∈ P ∩ u0 := by
          rw [hPeq]
          exact Finset.mem_union_right _ hx
        exact (Finset.mem_inter.mp this).1
      obtain ⟨m, hm, hcm⟩ := force_compat_aux f b P ihstar (ascList (u0 ∩ t.unknowns)) t
        (fun c hcc => hforcedP (mem_ascList.mp hcc)) hd hc hcard
      have hstm : Steps t m := by
        refine runLoop_steps (fun c w r2 hw => putF_steps f b true c w r2 hw) _ _ _ hm
      obtain ⟨r, hr, hcr⟩ := ih m (fun v hv => hus v (List.mem_cons_of_mem u0 hv))
        (hstm.2.2.2.2 hd) hcm (lt_of_le_of_lt (Finset.card_le_card hstm.2.1) hcard)
      refine ⟨r, ?_, hcr⟩
      simp only [runLoop, heq, hm]
      exact hr

/-- Compatible propagation always succeeds: `put_star` on a star of `P` and
`put_blank` off `P` return success and stay compatible with `P`. -/
theorem putF_compat :
    ∀ (f : Nat) (b : Board) (is : Bool) (cell : Nat) (s : St) (P : Finset Nat),
      WfB b → ValidP b P → Disjoint s.stars s.unknowns → Compat P s →
      (is = true → cell ∈ P) → (is = false → cell ∉ P) →
      s.unknowns.card < f →
      ∃ r, putF f b is cell s = some (PutRes.ok r) ∧ Compat P r := by
  intro f
  induction f with
  | zero => intro b is cell s P _ _ _ _ _ _ h; omega
  | succ f ih =>
    intro b is cell s P hwf hval hd hc hisP hisnP hcard
    have ihstar : ∀ c2 t, Disjoint t.stars t.unknowns → Compat P t → c2 ∈ P →
        t.unknowns.card < f →
        ∃ r, putF f b true c2 t = some (PutRes.ok r) ∧ Compat P r :=
      fun c2 t hdt hct hc2 hcf =>
        ih b true c2 t P hwf hval hdt hct (fun _ => hc2) (fun hx => nomatch hx) hcf
    have ihblank : ∀ c2 t, Disjoint t.stars t.unknowns → Compat P t → c2 ∉ P →
        t.unknowns.card < f →
        ∃ r, putF f b false c2 t = some (PutRes.ok r) ∧ Compat P r :=
      fun c2 t hdt hct hc2 hcf =>
        ih b false c2 t P hwf hval hdt hct (fun hx => nomatch hx) (fun _ => hc2) hcf
    cases is with
    | true =>
      have hcellP : cell ∈ P := hisP rfl
      by_cases h1 : cell ∈ s.stars
      · refine ⟨s, ?_, hc⟩
        simp only [putF, h1, if_true]
      · have h2 : cell ∈ s.unknowns := by
          rcases Finset.mem_union.mp (hc.2 hcellP) with hm | hm
          · exact absurd hm h1
          · exact hm
        have hc1 : Compat P ⟨s.units, insert cell s.stars, s.unknowns.erase cell⟩ := by
          constructor
          · intro x hx
            rcases Finset.mem_insert.mp hx with rfl | hx2
            · exact hcellP
            · exact hc.1 hx2
          · intro p hp
            show p ∈ insert cell s.stars ∪ s.unknowns.erase cell
            by_cases hpc : p = cell
            · exact Finset.mem_union_left _ (hpc ▸ Finset.mem_insert_self cell s.stars)
            · rcases Finset.mem_union.mp (hc.2 hp) with hm | hm
              · exact Finset.mem_union_left _ (Finset.mem_insert_of_mem hm)
              · exact Finset.mem_union_right _ (Finset.mem_erase.mpr ⟨hpc, hm⟩)
        have hguard : ((b.units_for cell).any
            (fun u => decide (b.S < count_stars u ⟨s.units, insert cell s.stars, s.unknowns.erase cell⟩))) = false := by
          rw [List.any_eq_false]
          intro u hu
          simp only [decide_eq_true_eq]
          obtain ⟨humem, _⟩ := (mem_units_for hwf).mp hu
          have := count_le_of_compat hc1.1 (hval.1 u humem)
          omega
        have hcards1 : (s.unknowns.erase cell).card < f := by
          rw [Finset.card_erase_of_mem h2]
          have : 0 < s.unknowns.card := Finset.card_pos.mpr ⟨cell, h2⟩
          omega
        have hnbrP : ∀ x ∈ ascList (neighbors cell b.N), x ∉ P := by
          intro x hx hxP
          exact hval.2 x hxP cell hcellP (mem_ascList.mp hx)
        obtain ⟨r, hr, hcr⟩ := nbr_compat_aux f b P ihblank _
          ⟨s.units, insert cell s.stars, s.unknowns.erase cell⟩ hnbrP
          (disjoint_move hd) hc1 hcards1
        refine ⟨r, ?_, hcr⟩
        simp only [putF, h1, if_false, h2, if_true, hguard, Bool.false_eq_true]
        exact hr
    | false =>
      have hcellnP : cell ∉ P := hisnP rfl
      by_cases h2 : cell ∈ s.unknowns
      · have hc1 : Compat P ⟨s.units, s.stars, s.unknowns.erase cell⟩ := by
          refine ⟨hc.1, ?_⟩
          intro p hp
          show p ∈ s.stars ∪ s.unknowns.erase cell
          rcases Finset.mem_union.mp (hc.2 hp) with hm | hm
          · exact Finset.mem_union_left _ hm
          · refine Finset.mem_union_right _ (Finset.mem_erase.mpr ⟨?_, hm⟩)
            rintro rfl
            exact hcellnP hp
        have hcards1 : (s.unknowns.erase cell).card < f := by
          rw [Finset.card_erase_of_mem h2]
          have : 0 < s.unknowns.card := Finset.card_pos.mpr ⟨cell, h2⟩
          omega
        obtain ⟨r, hr, hcr⟩ := unit_compat_aux f b P hval ihstar (b.units_for cell)
          ⟨s.units, s.stars, s.unknowns.erase cell⟩
          (fun u hu => ((mem_units_for hwf).mp hu).1)
          (Finset.disjoint_of_subset_right (Finset.erase_subset _ _) hd) hc1 hcards1
        refine ⟨r, ?_, hcr⟩
        simp only [putF, h2, if_true]
        exact hr
      · refine ⟨s, ?_, hc⟩
        simp only [putF, h2, if_false]

theorem dropWhile_head_false {α : Type} {p : α → Bool} :
    ∀ {l l2 : List α} {a : α}, l.dropWhile p = a :: l2 → p a = false := by
  intro l
  induction l with
  | nil => intro l2 a h; simp [List.dropWhile] at h
  | cons x l ih =>
    intro l2 a h
    rw [List.dropWhile_cons] at h
    by_cases hx : p x = true
    · rw [if_pos hx] at h
      exact ih h
    · rw [if_neg hx] at h
      injection h with h1 _
      subst h1
      exact Bool.eq_false_iff.mpr hx

/-- Completeness: from a compatible state, the search yields a state whose
stars are exactly the valid placement `P`. -/
theorem searchF_complete :
    ∀ (f : Nat) (b : Board) (s : St) (P : Finset Nat) (l : List St) (e : Bool),
      WfB b → ValidP b P → Disjoint s.stars s.unknowns → Compat P s →
      (∀ u ∈ s.units, u ∈ b.units) →
      (∀ u ∈ b.units, u ∈ s.units ∨ count_stars u s = b.S) →
      (∀ p ∈ P, ∃ u ∈ b.units, p ∈ u) →
      s.unknowns.card < f → searchF f b s = some (l, e) →
      ∃ t ∈ l, t.stars = P := by
  intro f
  induction f with
  | zero => intro b s P l e _ _ _ _ _ _ _ h; omega
  | succ f ih =>
    intro b s P l e hwf hval hd hc hum hpend hcover hcard h
    cases hdrop : dropFilled b s with
    | nil =>
      rw [searchF_succ_nil hdrop] at h
      obtain ⟨rfl, rfl⟩ : [(⟨[], s.stars, s.unknowns⟩ : St)] = l ∧ false = e := by
        injection h with h1; injection h1 with h2 h3; exact ⟨h2, h3⟩
      refine ⟨⟨[], s.stars, s.unknowns⟩, List.mem_singleton.mpr rfl, ?_⟩
      show s.stars = P
      refine Finset.Subset.antisymm hc.1 ?_
      intro p hp
      obtain ⟨u, humem, hpu⟩ := hcover p hp
      have hcnt : count_stars u s = b.S := by
        rcases dropFilled_pending hpend u humem with hin | hcu
        · rw [hdrop] at hin; cases hin
        · exact hcu
      -- u ∩ stars ⊆ u ∩ P with equal cardinality, so p ∈ u ∩ P is a star
      have hsub : u ∩ s.stars ⊆ u ∩ P := by
        intro x hx
        obtain ⟨h1, h2⟩ := Finset.mem_inter.mp hx
        exact Finset.mem_inter.mpr ⟨h1, hc.1 h2⟩
      have hcards : (u ∩ P).card ≤ (u ∩ s.stars).card := by
        have h1 : (P ∩ u).card = b.S := hval.1 u humem
        have h2 : (u ∩ P).card = b.S := by rw [Finset.inter_comm]; exact h1
        unfold count_stars at hcnt
        omega
      have heq : u ∩ s.stars = u ∩ P := Finset.eq_of_subset_of_card_le hsub hcards
      have : p ∈ u ∩ s.stars := by
        rw [heq]
        exact Finset.mem_inter.mpr ⟨hpu, hp⟩
      exact (Finset.mem_inter.mp this).2
    | cons u0 rest =>
      rw [searchF_succ_cons hdrop] at h
      have hu0 : u0 ∈ b.units :=
        hum u0 ((dropFilled_suffix b s).subset (hdrop ▸ List.mem_cons_self u0 rest))
      have hcnt_ne : count_stars u0 s ≠ b.S := by
        have := dropWhile_head_false (p := fun v => count_stars v s == b.S) (hdrop)
        simpa using this
      have hcnt_le : count_stars u0 s ≤ b.S :=
        count_le_of_compat hc.1 (hval.1 u0 hu0)
      have hcnt_lt : count_stars u0 s < b.S := lt_of_le_of_ne hcnt_le hcnt_ne
      -- there is a cell of P in u0 that is not yet a star
      have hss : u0 ∩ s.stars ⊂ u0 ∩ P := by
        have hsub1 : u0 ∩ s.stars ⊆ u0 ∩ P := by
          intro x hx
          obtain ⟨h1, h2⟩ := Finset.mem_inter.mp hx
          exact Finset.mem_inter.mpr ⟨h1, hc.1 h2⟩
        refine Finset.ssubset_def.mpr ⟨hsub1, fun hsub2 => ?_⟩
        have hle := Finset.card_le_card hsub2
        have h1 : (P ∩ u0).card = b.S := hval.1 u0 hu0
        have h2 : (u0 ∩ P).card = b.S := by rw [Finset.inter_comm]; exact h1
        unfold count_stars at hcnt_lt
        omega
      obtain ⟨p, hpP, hpns⟩ := Finset.exists_of_ssubset hss
      obtain ⟨hpu0, hpinP⟩ := Finset.mem_inter.mp hpP
      have hpstar : p ∉ s.stars := fun hx => hpns (Finset.mem_inter.mpr ⟨hpu0, hx⟩)
      have hpunk : p ∈ s.unknowns := by
        rcases Finset.mem_union.mp (hc.2 hpinP) with hm | hm
        · exact absurd hm hpstar
        · exact hm
      have hpcs : p ∈ ascList (u0 ∩ s.unknowns) :=
        mem_ascList.mpr (Finset.mem_inter.mpr ⟨hpu0, hpunk⟩)
      -- inner induction over the candidate list
      suffices haux : ∀ (cs : List Nat) (s0 : St) (l0 : List St) (e0 : Bool),
          Disjoint s0.stars s0.unknowns → Compat P s0 →
          (∀ u ∈ s0.units, u ∈ b.units) →
          (∀ u ∈ b.units, u ∈ s0.units ∨ count_stars u s0 = b.S) →
          (∀ c ∈ cs, c ∈ s0.unknowns) → p ∈ cs → s0.unknowns.card ≤ f →
          gLoop (searchF f b) b s0 cs = some (l0, e0) →
          ∃ t ∈ l0, t.stars = P by
        refine haux _ ⟨u0 :: rest, s.stars, s.unknowns⟩ l e hd hc ?_ ?_ ?_ hpcs
          (by show s.unknowns.card ≤ f; omega) h
        · intro v hv
          exact hum v ((dropFilled_suffix b s).subset (hdrop ▸ hv))
        · intro v hv
          rcases dropFilled_pending hpend v hv with hin | hcu
          · exact Or.inl (by rw [hdrop] at hin; exact hin)
          · exact Or.inr hcu
        · intro c hcc
          exact (Finset.mem_inter.mp (mem_ascList.mp hcc)).2
      intro cs
      induction cs with
      | nil => intro s0 l0 e0 _ _ _ _ _ hp _ _; cases hp
      | cons c cs ihc =>
        intro s0 l0 e0 hd0 hc0 hum0 hpend0 hmem hp hcard0 hg
        have hcunk : c ∈ s0.unknowns := hmem c (List.mem_cons_self c cs)
        by_cases hcp : c ∈ P
        · -- a candidate in P: its branch succeeds and (by the inductive
          -- hypothesis) yields P; if c is not p itself the same argument works
          obtain ⟨r, hrputF, hcr⟩ := putF_compat (s0.unknowns.card + 1) b true c s0 P
            hwf hval hd0 hc0 (fun _ => hcp) (fun hx => nomatch hx) (by omega)
          have hps : put_star b c s0 = PutRes.ok r := by
            have heq := put_star_eq b c s0
            unfold putStarF at heq
            rw [hrputF] at heq
            injection heq with h1
            exact h1.symm
          rw [gLoop_cons_ok hps] at hg
          have hstep : Steps s0 r := by
            have := putF_steps _ b true c s0 (PutRes.ok r) hrputF
            exact this
          have hd1 : Disjoint r.stars r.unknowns := hstep.2.2.2.2 hd0
          have hcard1 : r.unknowns.card < f :=
            lt_of_lt_of_le (put_star_shrinks hd0 hcunk hps) hcard0
          cases hrec : searchF f b r with
          | none => rw [hrec] at hg; cases hg
          | some pq =>
            obtain ⟨l1, e1⟩ := pq
            rw [hrec] at hg
            have hyield : ∃ t ∈ l1, t.stars = P := by
              refine ih b r P l1 e1 hwf hval hd1 hcr ?_ ?_ hcover hcard1 hrec
              · intro v hv
                rw [hstep.1] at hv
                exact hum0 v hv
              · intro v hv
                rcases hpend0 v hv with hin | hcu
                · exact Or.inl (hstep.1 ▸ hin)
                · right
                  have hmono : count_stars v s0 ≤ count_stars v r :=
                    count_stars_mono hstep.2.2.1
                  have hle : count_stars v r ≤ b.S :=
                    count_le_of_compat hcr.1 (hval.1 v hv)
                  omega
            have he1 : e1 = false := searchF_noerr f b r l1 e1 hwf hd1 hrec
            subst he1
            cases htail : gLoop (searchF f b) b s0 cs with
            | none => rw [htail] at hg; cases hg
            | some q =>
              obtain ⟨l2, e2⟩ := q
              rw [htail] at hg
              obtain ⟨rfl, _⟩ : l1 ++ l2 = l0 ∧ e2 = e0 := by
                injection hg with h1; injection h1 with h2 h3; exact ⟨h2, h3⟩
              obtain ⟨t, htl, hts⟩ := hyield
              exact ⟨t, List.mem_append.mpr (Or.inl htl), hts⟩
        · -- a candidate off P: whatever its branch does, p is further on
          have hpc : p ∈ cs := by
            rcases List.mem_cons.mp hp with rfl | hp2
            · exact absurd hpinP hcp
            · exact hp2
          cases hps : put_star b c s0 with
          | ok s1 =>
            rw [gLoop_cons_ok hps] at hg
            have hd1 : Disjoint s1.stars s1.unknowns := by
              have := putF_steps _ b true c s0 (PutRes.ok s1) (put_star_ok_putF hps)
              exact this.2.2.2.2 hd0
            cases hrec : searchF f b s1 with
            | none => rw [hrec] at hg; cases hg
            | some pq =>
              obtain ⟨l1, e1⟩ := pq
              rw [hrec] at hg
              have he1 : e1 = false := searchF_noerr f b s1 l1 e1 hwf hd1 hrec
              subst he1
              cases htail : gLoop (searchF f b) b s0 cs with
              | none => rw [htail] at hg; cases hg
              | some q =>
                obtain ⟨l2, e2⟩ := q
                rw [htail] at hg
                obtain ⟨rfl, _⟩ : l1 ++ l2 = l0 ∧ e2 = e0 := by
                  injection hg with h1; injection h1 with h2 h3; exact ⟨h2, h3⟩
                obtain ⟨t, htl, hts⟩ := ihc s0 l2 e2 hd0 hc0 hum0 hpend0
                  (fun x hx => hmem x (List.mem_cons_of_mem c hx)) hpc hcard0 htail
                exact ⟨t, List.mem_append.mpr (Or.inr htl), hts⟩
          | fail s1 =>
            rw [gLoop_cons_fail hps] at hg
            exact ihc s0 l0 e0 hd0 hc0 hum0 hpend0
              (fun x hx => hmem x (List.mem_cons_of_mem c hx)) hpc hcard0 hg
          | err s1 =>
            exact absurd hps (put_star_noerr hwf hd0 hcunk s1)

/-! ### make_board and the integer square root -/

theorem isqrt_eq_sqrt (n : Nat) : isqrt n = Nat.sqrt n := by
  unfold isqrt
  have hset : (Finset.range (n + 1)).filter (fun k => k * k ≤ n) =
      Finset.range (Nat.sqrt n + 1) := by
    ext k
    simp only [Finset.mem_filter, Finset.mem_range]
    constructor
    · rintro ⟨_, hk⟩
      exact Nat.lt_succ_of_le (Nat.le_sqrt.mpr hk)
    · intro hk
      have hk2 : k ≤ Nat.sqrt n := Nat.lt_succ_iff.mp hk
      have hsqn : Nat.sqrt n ≤ n := Nat.sqrt_le_self n
      exact ⟨by omega, Nat.le_sqrt.mp hk2⟩
  rw [hset, Finset.card_range]
  omega

/-! ### Concrete boards used in witnesses and counterexamples -/

/-- The board `make_board(1, "a")`: a 1×1 board with one star per unit. -/
def B1 : Board :=
  { N := 1, S := 1, units := [{0}, {0}, {0}],
    units_for := fun c => [({0} : Finset Nat), {0}, {0}].filter (fun u => c ∈ u),
    pic := ['a'] }

/-- The board `make_board(2, "a")`: a 1×1 board demanding two stars in each
one-cell unit — the spec's own unsatisfiable scenario 4. -/
def B2 : Board :=
  { N := 1, S := 2, units := [{0}, {0}, {0}],
    units_for := fun c => [({0} : Finset Nat), {0}, {0}].filter (fun u => c ∈ u),
    pic := ['a'] }

/-- The board `make_board(2, "aaabbbccc")`: 3×3, two stars per unit, boxes
equal to the rows. -/
def B4 : Board :=
  { N := 3, S := 2,
    units := [{0,3,6}, {1,4,7}, {2,5,8}, {0,1,2}, {3,4,5}, {6,7,8}, {0,1,2}, {3,4,5}, {6,7,8}],
    units_for := fun c => [({0,3,6} : Finset Nat), {1,4,7}, {2,5,8}, {0,1,2}, {3,4,5},
      {6,7,8}, {0,1,2}, {3,4,5}, {6,7,8}].filter (fun u => c ∈ u),
    pic := ['a','a','a','b','b','b','c','c','c'] }

/-- The board `make_board(1, "aaabbbccc")`: 3×3, one star per unit, boxes
equal to the rows. -/
def B5 : Board :=
  { N := 3, S := 1,
    units := [{0,3,6}, {1,4,7}, {2,5,8}, {0,1,2}, {3,4,5}, {6,7,8}, {0,1,2}, {3,4,5}, {6,7,8}],
    units_for := fun c => [({0,3,6} : Finset Nat), {1,4,7}, {2,5,8}, {0,1,2}, {3,4,5},
      {6,7,8}, {0,1,2}, {3,4,5}, {6,7,8}].filter (fun u => c ∈ u),
    pic := ['a','a','a','b','b','b','c','c','c'] }

/-- A 3×3 board with `S = 2` and two units, sizes 2 and 7, with a consistent
`units_for` index.  Its unique valid placement is `{0, 2, 6, 8}`, yet
`search` yields it four times: the two stars of each unit can be guessed in
either order, and both orders survive propagation.  (The same duplication
mechanism affects every standard `3N`-unit board with `S ≥ 2`; the smallest
uniquely-solvable such boards are far beyond exhaustive checking.) -/
def B6 : Board :=
  { N := 3, S := 2,
    units := [{0, 2}, {1, 3, 4, 5, 6, 7, 8}],
    units_for := fun c => [({0, 2} : Finset Nat), {1, 3, 4, 5, 6, 7, 8}].filter (fun u => c ∈ u),
    pic := [] }

/-- Rendering of step 4 of `place_star` as the spec words it (claim C4): a
neighbor "that is not already a star" gets `place_blank`, so a star neighbor
is skipped with success.  The source instead fails on a star neighbor
(`nbrStep`); this definition exists to state that difference. -/
def nbrStepSkip (pb : Nat → St → Option PutRes) (c : Nat) (t : St) : Option PutRes :=
  if c ∈ t.stars then some (PutRes.ok t) else pb c t

/-- No placement solves `B2`: its one-cell units would need two stars. -/
theorem b2_nosol : ∀ P : Finset Nat, P ⊆ Finset.range (B2.N ^ 2) → is_solution B2 P = false := by
  intro P hP
  have h : ∀ Q ∈ (Finset.range (B2.N ^ 2)).powerset, is_solution B2 Q = false := by decide
  exact h P (Finset.mem_powerset.mpr hP)

/-! ### The claims -/

/-- Claim C1: soundness of the search engine — for every board (with the §3
`units_for` index invariant) and every state yielded by
`search(board, initial_state(board))`, the yielded star set is a valid
solution: every unit contains exactly `S` stars and no two stars are in each
other's neighbor set (`is_solution`). -/
theorem c1_search_sound :
    ∀ b : Board, WfB b →
      ∀ t ∈ search b (initial_state b), is_solution b t.stars = true := by
  intro b hwf t ht
  have hsi := sinv_initial b
  have hd : Disjoint (initial_state b).stars (initial_state b).unknowns := hsi.1
  have hsome := searchF_isSome ((initial_state b).unknowns.card + 1) b (initial_state b)
    hd (by omega)
  unfold search searchRun at ht
  cases hx : searchF ((initial_state b).unknowns.card + 1) b (initial_state b) with
  | none => rw [hx] at hsome; cases hsome
  | some p =>
    obtain ⟨l, e⟩ := p
    rw [hx] at ht
    exact (searchF_sound _ b (initial_state b) l e hwf hsi hx t ht).1

/-- Witness for C1 at the 1×1 board `make_board(1, "a")`: the first yielded
state of its search is a valid solution. -/
theorem c1_witness :
    is_solution B1 ((search B1 (initial_state B1)).getD 0 ⟨[], ∅, ∅⟩).stars = true :=
  c1_search_sound B1 (fun _ => rfl)
    ((search B1 (initial_state B1)).getD 0 ⟨[], ∅, ∅⟩) (by decide)

/-- Counterexample to claim C2 at the unsatisfiable board `make_board(2, "a")`
(the spec's scenario 4): `search` does yield the empty sequence, but `solve`
raises `StopIteration` out of `next(...)` — it does not return a "none"
outcome.  (The source docstring itself says "Raise an error if there is no
solution".) -/
theorem c2_counterexample :
    (∀ Q ∈ (Finset.range (B2.N ^ 2)).powerset, is_solution B2 Q = false) ∧
    search B2 (initial_state B2) = [] ∧
    solve B2 = Except.error SolveErr.stopIteration := by
  refine ⟨by decide, by rfl, by rfl⟩

/-- Claim C2 as amended: for every board with no valid star placement,
`search` yields an empty sequence and `solve` raises `StopIteration`
(rather than returning a value). -/
theorem c2_amended :
    ∀ b : Board, WfB b →
      (∀ P : Finset Nat, P ⊆ Finset.range (b.N ^ 2) → is_solution b P = false) →
      search b (initial_state b) = [] ∧ solve b = Except.error SolveErr.stopIteration := by
  intro b hwf hnosol
  have hsi := sinv_initial b
  have hd : Disjoint (initial_state b).stars (initial_state b).unknowns := hsi.1
  have hsome := searchF_isSome ((initial_state b).unknowns.card + 1) b (initial_state b)
    hd (by omega)
  cases hx : searchF ((initial_state b).unknowns.card + 1) b (initial_state b) with
  | none => rw [hx] at hsome; cases hsome
  | some p =>
    obtain ⟨l, e⟩ := p
    have hl : l = [] := by
      rw [List.eq_nil_iff_forall_not_mem]
      intro t ht
      obtain ⟨hv, hs⟩ := searchF_sound _ b (initial_state b) l e hwf hsi hx t ht
      have hsub : t.stars ⊆ Finset.range (b.N ^ 2) := by
        intro x hxx
        rcases Finset.mem_union.mp (hs hxx) with hm | hm
        · exact absurd hm (Finset.not_mem_empty x)
        · exact hm
      have hfalse := hnosol t.stars hsub
      rw [hv] at hfalse
      cases hfalse
    have he : e = false := searchF_noerr _ b (initial_state b) l e hwf hd hx
    subst hl
    subst he
    have hrun : searchRun b (initial_state b) = ([], false) := by
      unfold searchRun
      rw [hx]
      rfl
    constructor
    · unfold search
      rw [hrun]
    · unfold solve
      rw [hrun]

/-- Witness for the amended C2 at `make_board(2, "a")`. -/
theorem c2_witness :
    search B2 (initial_state B2) = [] ∧ solve B2 = Except.error SolveErr.stopIteration :=
  c2_amended B2 (fun _ => rfl) b2_nosol

/-- Counterexample to claim C3: on a cell that is confirmed blank (in
neither `stars` nor `unknowns`), `put_star` does not return a success
outcome — `state.unknowns.remove(cell)` raises `KeyError`. -/
theorem c3_counterexample :
    (0 ∉ (⟨[], ∅, ∅⟩ : St).stars ∧ 0 ∉ (⟨[], ∅, ∅⟩ : St).unknowns) ∧
    put_star B1 0 ⟨[], ∅, ∅⟩ = PutRes.err ⟨[], ∅, ∅⟩ ∧
    put_star B1 0 ⟨[], ∅, ∅⟩ ≠ PutRes.ok ⟨[], ∅, ∅⟩ := by
  refine ⟨by decide, by decide, by decide⟩

/-- Claim C3 as amended: `put_blank` on any already-resolved cell is a no-op
success; `put_star` on a cell already in `stars` is a no-op success; but
`put_star` on a confirmed-blank cell raises `KeyError` (leaving the state
unchanged) instead of returning success. -/
theorem c3_amended :
    ∀ (b : Board) (cell : Nat) (s : St),
      (cell ∉ s.unknowns → put_blank b cell s = PutRes.ok s) ∧
      (cell ∈ s.stars → put_star b cell s = PutRes.ok s) ∧
      (cell ∉ s.stars → cell ∉ s.unknowns → put_star b cell s = PutRes.err s) := by
  intro b cell s
  refine ⟨?_, ?_, ?_⟩
  · intro h
    unfold put_blank putBlankF
    simp only [putF, h, if_false, Option.getD_some]
  · intro h
    unfold put_star putStarF
    simp only [putF, h, if_true, Option.getD_some]
  · intro h1 h2
    unfold put_star putStarF
    simp only [putF, h1, if_false, h2, Option.getD_some]

/-- Witness for the amended C3: a no-op blank and a no-op star succeed, and
a star on a confirmed-blank cell raises. -/
theorem c3_witness :
    put_blank B1 0 ⟨[], {0}, ∅⟩ = PutRes.ok ⟨[], {0}, ∅⟩ ∧
    put_star B1 0 ⟨[], {0}, ∅⟩ = PutRes.ok ⟨[], {0}, ∅⟩ ∧
    put_star B1 0 ⟨[], ∅, ∅⟩ = PutRes.err ⟨[], ∅, ∅⟩ := by
  obtain ⟨h1, h2, _⟩ := c3_amended B1 0 ⟨[], {0}, ∅⟩
  obtain ⟨_, _, h3⟩ := c3_amended B1 0 ⟨[], ∅, ∅⟩
  exact ⟨h1 (by decide), h2 (by decide), h3 (by decide) (by decide)⟩

/-- Observable outcome of a `put_star`/`put_blank` call: `0` = success,
`1` = returned `None`, `2` = raised `KeyError`. -/
def resKind : PutRes → Nat
  | PutRes.ok _ => 0
  | PutRes.fail _ => 1
  | PutRes.err _ => 2

/-- Counterexample to claim C4 at `make_board(2, "aaabbbccc")`, state with a
star at cell 0 and cell 1 unknown: cell 1 is unknown, after the move no unit
of cell 1 exceeds `S = 2`, and the spec-worded loop (`nbrStepSkip`, which
skips star neighbors) blanks every non-star neighbor successfully — yet
`put_star` fails, because the source fails on the star neighbor 0 instead of
skipping it. -/
theorem c4_counterexample :
    (1 ∈ (⟨[], {0}, {1}⟩ : St).unknowns) ∧
    ((B4.units_for 1).any (fun u => decide (B4.S <
      count_stars u ⟨[], insert 1 {0}, Finset.erase {1} 1⟩)) = false) ∧
    resKind ((runLoop (nbrStepSkip (putF 1 B4 false)) (ascList (neighbors 1 B4.N))
      ⟨[], insert 1 {0}, Finset.erase {1} 1⟩).getD (PutRes.err ⟨[], ∅, ∅⟩)) = 0 ∧
    resKind (put_star B4 1 ⟨[], {0}, {1}⟩) = 1 := by
  refine ⟨by decide, by decide, by decide, by decide⟩

/-- Claim C4 as amended: for an unknown cell whose move breaks no unit cap,
`put_star` returns exactly what the sequential neighbor loop returns — so it
succeeds when that loop blanks every neighbor successfully; and a neighbor
that already holds a star makes the loop iteration fail (it is not
skipped). -/
theorem c4_amended :
    ∀ (f : Nat) (b : Board) (cell : Nat) (s : St) (r : PutRes),
      cell ∉ s.stars → cell ∈ s.unknowns →
      ((b.units_for cell).any (fun u => decide (b.S <
        count_stars u ⟨s.units, insert cell s.stars, s.unknowns.erase cell⟩)) = false) →
      runLoop (nbrStep (putF f b false)) (ascList (neighbors cell b.N))
        ⟨s.units, insert cell s.stars, s.unknowns.erase cell⟩ = some r →
      putF (f + 1) b true cell s = some r ∧
      (∀ x t, x ∈ t.stars → nbrStep (putF f b false) x t = some (PutRes.fail t)) := by
  intro f b cell s r h1 h2 h3 hloop
  constructor
  · simp only [putF, h1, if_false, h2, if_true, h3, Bool.false_eq_true]
    exact hloop
  · intro x t hx
    unfold nbrStep
    simp only [hx, if_true]

/-- Witness for the amended C4: a successful star placement via the neighbor
loop, and a failing loop iteration on a star neighbor. -/
theorem c4_witness :
    putF 2 B4 true 1 ⟨[], ∅, {1}⟩ = some (PutRes.ok ⟨[], {1}, ∅⟩) ∧
    nbrStep (putF 1 B4 false) 0 ⟨[], {0}, ∅⟩ = some (PutRes.fail ⟨[], {0}, ∅⟩) := by
  obtain ⟨ha, hb⟩ := c4_amended 1 B4 1 ⟨[], ∅, {1}⟩ (PutRes.ok ⟨[], {1}, ∅⟩)
    (by decide) (by decide) (by decide) (by decide)
  exact ⟨ha, hb 0 ⟨[], {0}, ∅⟩ (by decide)⟩

/-- Counterexample to claim C5 at `make_board(1, "aaabbbccc")`: with stars
`{0, 3, 7}` (column 0 already holds two stars, `S = 1`) and cell 6 the only
unknown, `place_blank(6)` returns success, yet a unit containing cell 6 (the
column `{0, 3, 6}`) has more than `S` stars afterwards; and on an
already-resolved cell `place_blank` succeeds without any check, so the lower
bound `stars + unknowns ≥ S` can fail as well. -/
theorem c5_counterexample :
    resKind (put_blank B5 6 ⟨[], {0, 3, 7}, {6}⟩) = 0 ∧
    ((B5.units_for 6).any (fun u => decide (B5.S <
      count_stars u (put_blank B5 6 ⟨[], {0, 3, 7}, {6}⟩).st)) = true) ∧
    resKind (put_blank B5 6 ⟨[], ∅, ∅⟩) = 0 ∧
    ((B5.units_for 6).any (fun u => decide (count_stars u (put_blank B5 6 ⟨[], ∅, ∅⟩).st +
      (u ∩ (put_blank B5 6 ⟨[], ∅, ∅⟩).st.unknowns).card < B5.S)) = true) := by
  refine ⟨by decide, by decide, by decide, by decide⟩

/-- Claim C5 as amended: for a board with the §3 index invariant and a state
with disjoint stars/unknowns in which no unit is over `S` yet, if
`place_blank` succeeds on a still-unknown cell then every unit containing
that cell satisfies `stars ≤ S` and `stars + unknowns ≥ S` in the resulting
state. -/
theorem c5_amended :
    ∀ (b : Board) (cell : Nat) (s : St) (r : St),
      WfB b → Disjoint s.stars s.unknowns → Capped b s → cell ∈ s.unknowns →
      put_blank b cell s = PutRes.ok r →
      ∀ u ∈ b.units_for cell,
        count_stars u r ≤ b.S ∧ b.S ≤ count_stars u r + (u ∩ r.unknowns).card := by
  intro b cell s r hwf hd hcap hcell h
  have hput : putF (s.unknowns.card + 1) b false cell s = some (PutRes.ok r) := by
    have heq := put_blank_eq b cell s
    rw [h] at heq
    exact heq
  obtain ⟨hOk, hchk⟩ := putF_ok_main _ b false cell s r hwf hd hput
  intro u hu
  constructor
  · exact hOk.2.2.1 hcap u ((mem_units_for hwf).mp hu).1
  · have hq := hchk rfl hcell u hu
    unfold quota at hq
    exact hq

/-- Witness for the amended C5 at `make_board(1, "aaabbbccc")` with a star
at 0 and unknowns `{6, 7}`: blanking 6 forces a star at 7, and afterwards
the column `{0, 3, 6}` of cell 6 meets both bounds. -/
theorem c5_witness :
    count_stars {0, 3, 6} (put_blank B5 6 ⟨[], {0}, {6, 7}⟩).st ≤ B5.S ∧
    B5.S ≤ count_stars {0, 3, 6} (put_blank B5 6 ⟨[], {0}, {6, 7}⟩).st +
      (({0, 3, 6} : Finset Nat) ∩ (put_blank B5 6 ⟨[], {0}, {6, 7}⟩).st.unknowns).card := by
  have hok : put_blank B5 6 ⟨[], {0}, {6, 7}⟩ =
      PutRes.ok (put_blank B5 6 ⟨[], {0}, {6, 7}⟩).st := by
    have hkind : resKind (put_blank B5 6 ⟨[], {0}, {6, 7}⟩) = 0 := by decide
    cases hres : put_blank B5 6 ⟨[], {0}, {6, 7}⟩ with
    | ok t => rfl
    | fail t => rw [hres] at hkind; simp [resKind] at hkind
    | err t => rw [hres] at hkind; simp [resKind] at hkind
  have hmem : ({0, 3, 6} : Finset Nat) ∈ B5.units_for 6 := by
    have h0 : B5.units_for 6 = [({0,3,6} : Finset Nat), {1,4,7}, {2,5,8}, {0,1,2}, {3,4,5},
        {6,7,8}, {0,1,2}, {3,4,5}, {6,7,8}].filter (fun u => 6 ∈ u) := rfl
    rw [h0, List.mem_filter]
    exact ⟨List.Mem.head _, by decide⟩
  have hcap : Capped B5 ⟨[], {0}, {6, 7}⟩ := by
    unfold Capped
    decide
  exact c5_amended B5 6 ⟨[], {0}, {6, 7}⟩ (put_blank B5 6 ⟨[], {0}, {6, 7}⟩).st
    (fun _ => rfl) (by decide) hcap (by decide) hok {0, 3, 6} hmem

theorem two_le_length_of_two_mem {α : Type} {l : List α} {a c : α}
    (ha : a ∈ l) (hc : c ∈ l) (hne : a ≠ c) : 2 ≤ l.length := by
  cases l with
  | nil => cases ha
  | cons x xs =>
    cases xs with
    | nil =>
      rcases List.mem_singleton.mp ha with rfl
      rcases List.mem_singleton.mp hc with rfl
      exact absurd rfl hne
    | cons y ys => simp only [List.length_cons]; omega

/-- Counterexample to claim C6: the board `B6` admits exactly one valid star
placement inside its cells, yet `search` yields four results (the unique
solution four times, once per order in which the two stars of each unit are
guessed) — so "yields exactly one result before yielding a second" does not
characterise having a unique solution. -/
theorem c6_counterexample :
    ((Finset.range (B6.N ^ 2)).powerset.filter
      (fun P => is_solution B6 P = true)).card = 1 ∧
    (search B6 (initial_state B6)).length = 4 := by
  refine ⟨by decide, by decide⟩

/-- Claim C6 as amended: on a board with the §3 index invariant whose units
cover all cells, (1) if the board admits exactly one valid placement inside
its cells then every yielded state carries exactly that placement (though
possibly several times, so counting yields does not detect uniqueness), and
(2) a board with at least two distinct valid placements makes `search` yield
at least two results. -/
theorem c6_amended :
    ∀ b : Board, WfB b →
      (∀ c ∈ Finset.range (b.N ^ 2), ∃ u ∈ b.units, c ∈ u) →
      (∀ P : Finset Nat, P ⊆ Finset.range (b.N ^ 2) → is_solution b P = true →
        (∀ Q : Finset Nat, Q ⊆ Finset.range (b.N ^ 2) → is_solution b Q = true → Q = P) →
        ∀ t ∈ search b (initial_state b), t.stars = P) ∧
      (∀ P1 P2 : Finset Nat, P1 ⊆ Finset.range (b.N ^ 2) → P2 ⊆ Finset.range (b.N ^ 2) →
        is_solution b P1 = true → is_solution b P2 = true → P1 ≠ P2 →
        2 ≤ (search b (initial_state b)).length) := by
  intro b hwf hcover
  have hsi := sinv_initial b
  have hd : Disjoint (initial_state b).stars (initial_state b).unknowns := hsi.1
  have hsome := searchF_isSome ((initial_state b).unknowns.card + 1) b (initial_state b)
    hd (by omega)
  constructor
  · intro P hPsub hPsol huniq t ht
    unfold search searchRun at ht
    cases hx : searchF ((initial_state b).unknowns.card + 1) b (initial_state b) with
    | none => rw [hx] at hsome; cases hsome
    | some p =>
      obtain ⟨l, e⟩ := p
      rw [hx] at ht
      obtain ⟨hv, hs⟩ := searchF_sound _ b (initial_state b) l e hwf hsi hx t ht
      have hsub : t.stars ⊆ Finset.range (b.N ^ 2) := by
        intro x hxx
        rcases Finset.mem_union.mp (hs hxx) with hm | hm
        · exact absurd hm (Finset.not_mem_empty x)
        · exact hm
      exact huniq t.stars hsub hv
  · intro P1 P2 h1sub h2sub h1sol h2sol hne
    cases hx : searchF ((initial_state b).unknowns.card + 1) b (initial_state b) with
    | none => rw [hx] at hsome; cases hsome
    | some p =>
      obtain ⟨l, e⟩ := p
      have hfind : ∀ P : Finset Nat, P ⊆ Finset.range (b.N ^ 2) → is_solution b P = true →
          ∃ t ∈ l, t.stars = P := by
        intro P hPsub hPsol
        refine searchF_complete _ b (initial_state b) P l e hwf (is_solution_iff.mp hPsol)
          hd ⟨?_, ?_⟩ hsi.2.2.2.1 hsi.2.2.2.2 ?_ (by omega) hx
        · intro x hxx
          exact absurd hxx (Finset.not_mem_empty x)
        · intro q hq
          exact Finset.mem_union_right _ (hPsub hq)
        · intro q hq
          exact hcover q (hPsub hq)
      obtain ⟨t1, ht1, hs1⟩ := hfind P1 h1sub h1sol
      obtain ⟨t2, ht2, hs2⟩ := hfind P2 h2sub h2sol
      have htne : t1 ≠ t2 := by
        intro heq
        exact hne (hs1 ▸ hs2 ▸ heq ▸ rfl)
      have hlen : 2 ≤ l.length := two_le_length_of_two_mem ht1 ht2 htne
      unfold search searchRun
      rw [hx]
      exact hlen

set_option maxRecDepth 100000 in
/-- Witness for the amended C6 at the board `B6`: every yielded state
carries the unique placement `{0, 2, 6, 8}`, and the witness records it
over the whole (four-element) yield list. -/
theorem c6_witness :
    (search B6 (initial_state B6)).all
      (fun t => decide (t.stars = ({0, 2, 6, 8} : Finset Nat))) = true ∧
    2 ≤ (search B6 (initial_state B6)).length := by
  have hcovb : ∀ c ∈ Finset.range (B6.N ^ 2), B6.units.any (fun u => decide (c ∈ u)) = true := by
    decide
  have hcov : ∀ c ∈ Finset.range (B6.N ^ 2), ∃ u ∈ B6.units, c ∈ u := by
    intro c hc
    have h2 := hcovb c hc
    rw [List.any_eq_true] at h2
    obtain ⟨u, hu, hcu⟩ := h2
    exact ⟨u, hu, of_decide_eq_true hcu⟩
  have h := c6_amended B6 (fun _ => rfl) hcov
  constructor
  · rw [List.all_eq_true]
    intro t ht
    rw [decide_eq_true_eq]
    refine h.1 {0, 2, 6, 8} (by decide) (by decide) ?_ t ht
    intro Q hQ hQs
    have huniq : ∀ Q2 ∈ (Finset.range (B6.N ^ 2)).powerset, is_solution B6 Q2 = true →
        Q2 = ({0, 2, 6, 8} : Finset Nat) := by decide
    exact huniq Q (Finset.mem_powerset.mpr hQ) hQs
  · decide

/-- Claim C7: the mutually recursive `put_star`/`put_blank` calls terminate
with the nesting depth bounded by the number of cells: fuel `N² + 1`, spent
one unit per nested call, is never exhausted for a state whose unknowns live
on the board.  (The recursion needs no external loop or queue; each call is
a self-contained recursive function.) -/
theorem c7_propagation_terminates :
    ∀ (b : Board) (cell : Nat) (s : St), s.unknowns ⊆ Finset.range (b.N ^ 2) →
      (putStarF (b.N ^ 2 + 1) b cell s).isSome = true ∧
      (putBlankF (b.N ^ 2 + 1) b cell s).isSome = true := by
  intro b cell s hsub
  have hcard : s.unknowns.card < b.N ^ 2 + 1 := by
    have h := Finset.card_le_card hsub
    rw [Finset.card_range] at h
    omega
  exact ⟨putF_isSome _ b true cell s hcard, putF_isSome _ b false cell s hcard⟩

/-- Witness for C7 on the 1×1 board. -/
theorem c7_witness :
    (putStarF (B1.N ^ 2 + 1) B1 0 ⟨[], ∅, {0}⟩).isSome = true ∧
    (putBlankF (B1.N ^ 2 + 1) B1 0 ⟨[], ∅, {0}⟩).isSome = true :=
  c7_propagation_terminates B1 0 ⟨[], ∅, {0}⟩ (by decide)

/-- Claim C9: frame property of propagation — `put_star` and `put_blank`
leave the pending-units list of the state untouched whatever their outcome
(they only touch `stars` and `unknowns`, the only other fields), and the
search engine removes units only from the front of the list (its popped list
is a suffix). -/
theorem c9_frame :
    ∀ (f : Nat) (b : Board) (cell : Nat) (s : St) (r1 r2 : PutRes),
      (putStarF f b cell s = some r1 → r1.st.units = s.units) ∧
      (putBlankF f b cell s = some r2 → r2.st.units = s.units) ∧
      dropFilled b s <:+ s.units := by
  intro f b cell s r1 r2
  refine ⟨?_, ?_, dropFilled_suffix b s⟩
  · intro h
    exact (putF_steps f b true cell s r1 h).1
  · intro h
    exact (putF_steps f b false cell s r2 h).1

/-- Witness for C9 on the 1×1 board: a successful `put_star` and a failing
`put_blank` both leave the pending list `[{0}]` unchanged, and the popped
list is a suffix. -/
theorem c9_witness :
    ((putStarF 2 B1 0 ⟨[{0}], ∅, {0}⟩).getD (PutRes.err ⟨[], ∅, ∅⟩)).st.units =
      ([{0}] : List (Finset Nat)) ∧
    ((putBlankF 2 B1 0 ⟨[{0}], ∅, {0}⟩).getD (PutRes.err ⟨[], ∅, ∅⟩)).st.units =
      ([{0}] : List (Finset Nat)) ∧
    dropFilled B1 ⟨[{0}], ∅, {0}⟩ <:+ ([{0}] : List (Finset Nat)) := by
  obtain ⟨h1, h2, h3⟩ := c9_frame 2 B1 0 ⟨[{0}], ∅, {0}⟩
    ((putStarF 2 B1 0 ⟨[{0}], ∅, {0}⟩).getD (PutRes.err ⟨[], ∅, ∅⟩))
    ((putBlankF 2 B1 0 ⟨[{0}], ∅, {0}⟩).getD (PutRes.err ⟨[], ∅, ∅⟩))
  refine ⟨h1 ?_, h2 ?_, h3⟩
  · have hs : (putStarF 2 B1 0 ⟨[{0}], ∅, {0}⟩).isSome = true := by decide
    cases hx : putStarF 2 B1 0 ⟨[{0}], ∅, {0}⟩ with
    | none => rw [hx] at hs; cases hs
    | some r => rfl
  · have hs : (putBlankF 2 B1 0 ⟨[{0}], ∅, {0}⟩).isSome = true := by decide
    cases hx : putBlankF 2 B1 0 ⟨[{0}], ∅, {0}⟩ with
    | none => rw [hx] at hs; cases hs
    | some r => rfl

/-- Claim C10: `make_board(S, picture)` fails its assertion (raising instead
of returning a board) exactly when the number of non-whitespace characters
of the picture is not a perfect square; nothing else about the box labels is
checked at construction.  The float `int(len(pic) ** 0.5)` is modelled by
the exact integer square root, which agrees with it for every realistic
length. -/
theorem c10_make_board_assert :
    ∀ (S : Nat) (picture : List Char),
      makeBoard S picture = none ↔ ¬ ∃ k : Nat, k * k = (stripWS picture).length := by
  intro S picture
  simp only [makeBoard]
  by_cases h : (stripWS picture).length =
      isqrt (stripWS picture).length * isqrt (stripWS picture).length
  · rw [if_pos h]
    constructor
    · intro hc
      cases hc
    · intro hc
      exact absurd ⟨isqrt (stripWS picture).length, h.symm⟩ hc
  · rw [if_neg h]
    constructor
    · rintro - ⟨k, hk⟩
      have hs : isqrt (stripWS picture).length = k := by
        rw [isqrt_eq_sqrt, ← hk, Nat.sqrt_eq]
      rw [hs] at h
      exact h hk.symm
    · intro _
      rfl
